import Mathlib

/-!
Verification of the Suwayomi Fallback Downloader
(src/suwayomi_fallback_downloader.py) against its specification.

The Python source is shallowly embedded as executable Lean definitions:

* Machine floating point: chapter numbers are IEEE-754 binary64 values in
  the Python program (JSON numbers).  They are modelled as the exact
  rational values of the doubles involved, and the one floating-point
  OPERATION the code performs on them (`chapter["chapterNumber"] -
  target_chapter_num` in `find_matching_chapter`) is modelled by exact
  subtraction followed by round-to-nearest-even at 53 significant bits
  (`fpRound`), which is exactly what binary64 subtraction does for the
  magnitudes involved (no overflow / subnormals for chapter numbers).
  IEEE comparisons (`<`, `abs`) are exact on the represented values.

* Similarity scores: `difflib`'s `ratio()` returns `2.0 * M / T` as a
  float.  Scores are modelled as the exact rational `2*M/T`; the final
  float rounding of this quotient (and of the literals `0.85`, compared
  against scores) is ignored.  The two can only disagree when a
  comparison separates two rationals closer than one double ulp, which
  for quotients `2*M/T` requires strings of length at least about `2^26`
  characters; all comparisons in this development and in any realistic
  run are unaffected.

* All state-manipulating code of the main loop is embedded as a pure
  step function over an explicit state, with every external interaction
  (HTTP queue fetches, searches, filesystem snapshots, clock readings)
  supplied per poll cycle by an environment value.

* To keep every definition kernel-computable, rational values are built
  with `mkRat` and integer arithmetic only (the `Rat` ring operations
  are irreducible), and all recursion is structural (lists, or `Nat`
  fuel with early exit).
-/

namespace SFD

/-! ## Rational / floating-point helpers -/

/-- Absolute value of a rational, computed on the numerator. -/
def ratAbs (q : ℚ) : ℚ := mkRat q.num.natAbs q.den

/-- Exact difference of two rationals (cross multiplication; avoids the
irreducible `Rat.sub`). -/
def exactSub (x y : ℚ) : ℚ :=
  mkRat (x.num * (y.den : ℤ) - y.num * (x.den : ℤ)) (x.den * y.den)

/-- Fuel-driven floor logarithm base 2 on naturals: largest `e` with
`2^e ≤ n` (0 for `n ≤ 1`).  The fuel is only descended while `n > 1`. -/
def natLog2 : ℕ → ℕ → ℕ
  | 0, _ => 0
  | f + 1, n => if n ≤ 1 then 0 else natLog2 f (n / 2) + 1

/-- Fuel-driven ceiling logarithm base 2 on naturals: smallest `e` with
`n ≤ 2^e` (0 for `n ≤ 1`). -/
def natClog2 : ℕ → ℕ → ℕ
  | 0, _ => 0
  | f + 1, n => if n ≤ 1 then 0 else natClog2 f ((n + 1) / 2) + 1

/-- `⌊log₂ q⌋` for a positive rational `q = num/den`:
for `q ≥ 1` it is `⌊log₂ ⌊q⌋⌋`, otherwise `-⌈log₂ ⌈q⁻¹⌉⌉`. -/
def floorLog2 (q : ℚ) : ℤ :=
  let n := q.num.natAbs
  let d := q.den
  if d ≤ n then (natLog2 (n / d) (n / d) : ℤ)
  else -(natClog2 ((d + n - 1) / n) ((d + n - 1) / n) : ℤ)

/-- Round-half-to-even integer division `n / d` (for `d > 0`; Lean's
`Int` division has nonnegative remainder for positive divisors). -/
def rneDiv (n : ℤ) (d : ℕ) : ℤ :=
  let q := n / d
  let r := n % d
  if 2 * r < (d : ℤ) then q
  else if (d : ℤ) < 2 * r then q + 1
  else if 2 ∣ q then q else q + 1

/-- Round a rational to the nearest IEEE-754 binary64 value
(round-to-nearest, ties-to-even, 53-bit significand, unbounded exponent
range — overflow and subnormals do not arise for the values handled by
the program).  The result of every double operation in the source is the
`fpRound` of its exact value. -/
def fpRound (q : ℚ) : ℚ :=
  if q = 0 then 0
  else
    let a : ℚ := ratAbs q
    let e : ℤ := floorLog2 a
    -- significand m = rne(a * 2^(52-e)), an integer in [2^52, 2^53]
    let m : ℤ :=
      if e ≤ 52 then rneDiv (a.num.natAbs * 2 ^ (52 - e).toNat) a.den
      else rneDiv (a.num.natAbs) (a.den * 2 ^ (e - 52).toNat)
    let sm : ℤ := if q < 0 then -m else m
    if e ≤ 52 then mkRat sm (2 ^ (52 - e).toNat)
    else mkRat (sm * 2 ^ (e - 52).toNat) 1

/-- Binary64 subtraction: exact difference, then rounding. -/
def fpSub (x y : ℚ) : ℚ := fpRound (exactSub x y)

/-- The double nearest to the literal `0.01` in
`abs(chapter["chapterNumber"] - target_chapter_num) < 0.01`. -/
def fp001 : ℚ := fpRound (mkRat 1 100)

/-- `TITLE_MATCH_THRESHOLD = 0.85` (see the note on similarity scores in
the file header: scores and this threshold are compared exactly). -/
def TITLE_MATCH_THRESHOLD : ℚ := mkRat 17 20

/-! ## difflib `SequenceMatcher` model (`isjunk = None`)

`title_similarity` calls `SequenceMatcher(None, x, y).ratio()`.  The
model below follows CPython's `difflib` with `isjunk = None`:

* `__chain_b` builds `b2j`, mapping each element of `b` to its ascending
  list of positions, then (autojunk) deletes entries for "popular"
  elements when `len(b) >= 200` (`len(indices) > len(b)//100 + 1`).
  `b2jGet` is that mapping, defined extensionally (the dict built by the
  Python fold contains exactly these lists).
* With `isjunk = None` the junk set `bjunk` is always empty, so in
  `find_longest_match` the two junk-extension `while` loops never
  execute and the `not isbjunk(...)` conjuncts of the first two
  extension loops are always true; they are therefore omitted.
* `get_matching_blocks` collects the blocks of the recursive
  `find_longest_match` decomposition (via an explicit queue), sorts them
  and merges adjacent ones; `ratio` only uses the SUM of block sizes,
  which the queue order, sorting and merging do not change, so the model
  computes the sum by the direct recursion (`matchTotal`).
-/

/-- `b2j.get(c, [])` after autojunk purging: the ascending positions of
`c` in `b`, or `[]` when `c` is popular (`len(b) >= 200` and more than
`len(b)//100 + 1` occurrences). -/
def b2jGet {α : Type} [DecidableEq α] (b : List α) (c : α) : List ℕ :=
  let idxs := (List.range b.length).filter (fun j => decide (b.get? j = some c))
  if 200 ≤ b.length ∧ b.length / 100 + 1 < idxs.length then [] else idxs

/-- State of `find_longest_match`'s dynamic-programming loop:
`newj2len` under construction plus the current best block. -/
structure FlmState where
  j2len : List (ℕ × ℕ)
  besti : ℕ
  bestj : ℕ
  bestsize : ℕ
deriving Repr, DecidableEq

/-- One step of the inner loop of `find_longest_match`:
`k = newj2len[j] = j2len.get(j-1, 0) + 1; if k > bestsize: update`.
(`j2len.get(j-1, 0)` is `0` when `j = 0`: the dict has no key `-1`.) -/
def flmStep (j2prev : List (ℕ × ℕ)) (i : ℕ) (st : FlmState) (j : ℕ) : FlmState :=
  let k := (if j = 0 then 0 else ((List.lookup (j - 1) j2prev).getD 0)) + 1
  let nj := st.j2len ++ [(j, k)]
  if st.bestsize < k then ⟨nj, i + 1 - k, j + 1 - k, k⟩
  else ⟨nj, st.besti, st.bestj, st.bestsize⟩

/-- The positions iterated by the inner loop at row `i`:
`b2j.get(a[i], [])` restricted to `blo ≤ j < bhi` (the `continue` /
`break` on the ascending list). -/
def jsRow {α : Type} [DecidableEq α] (a : List α) (b2 : α → List ℕ)
    (blo bhi i : ℕ) : List ℕ :=
  match a.get? i with
  | some c => (b2 c).filter (fun j => decide (blo ≤ j) && decide (j < bhi))
  | none => []

/-- One row (`for i in range(alo, ahi)`) of `find_longest_match`'s DP:
the previous row's `j2len` is consulted, a fresh `newj2len` is built. -/
def flmRow {α : Type} [DecidableEq α] (a : List α) (b2 : α → List ℕ)
    (blo bhi : ℕ) (st : FlmState) (i : ℕ) : FlmState :=
  (jsRow a b2 blo bhi i).foldl (flmStep st.j2len i)
    ⟨[], st.besti, st.bestj, st.bestsize⟩

/-- `a[i] == b[j]` with both indices in range, as a Bool. -/
def eltEq {α : Type} [DecidableEq α] (a b : List α) (i j : ℕ) : Bool :=
  match a.get? i, b.get? j with
  | some x, some y => decide (x = y)
  | _, _ => false

/-- First extension loop:
`while besti > alo and bestj > blo and a[besti-1] == b[bestj-1]`.
Structural on fuel; called with fuel `besti`, an upper bound on the
number of iterations. -/
def extendBack {α : Type} [DecidableEq α] (a b : List α) (alo blo : ℕ) :
    ℕ → ℕ → ℕ → ℕ → ℕ × ℕ × ℕ
  | 0, bi, bj, bs => (bi, bj, bs)
  | f + 1, bi, bj, bs =>
    if alo < bi ∧ blo < bj ∧ eltEq a b (bi - 1) (bj - 1) then
      extendBack a b alo blo f (bi - 1) (bj - 1) (bs + 1)
    else (bi, bj, bs)

/-- Second extension loop:
`while besti+bestsize < ahi and bestj+bestsize < bhi and
a[besti+bestsize] == b[bestj+bestsize]`.  Called with fuel `ahi`. -/
def extendFwd {α : Type} [DecidableEq α] (a b : List α) (ahi bhi : ℕ) :
    ℕ → ℕ → ℕ → ℕ → ℕ
  | 0, _, _, bs => bs
  | f + 1, bi, bj, bs =>
    if bi + bs < ahi ∧ bj + bs < bhi ∧ eltEq a b (bi + bs) (bj + bs) then
      extendFwd a b ahi bhi f bi bj (bs + 1)
    else bs

/-- `find_longest_match(alo, ahi, blo, bhi)` for `isjunk = None`. -/
def find_longest_match {α : Type} [DecidableEq α] (a b : List α)
    (b2 : α → List ℕ) (alo ahi blo bhi : ℕ) : ℕ × ℕ × ℕ :=
  let st := (List.range' alo (ahi - alo)).foldl (flmRow a b2 blo bhi)
    ⟨[], alo, blo, 0⟩
  let r := extendBack a b alo blo st.besti st.besti st.bestj st.bestsize
  let bs := extendFwd a b ahi bhi ahi r.1 r.2.1 r.2.2
  (r.1, r.2.1, bs)

/-- Total number of matched elements over the `get_matching_blocks`
decomposition (the fuel bounds the recursion depth; each recursive call
strictly shrinks the `a`-range, so fuel `ahi - alo` suffices). -/
def matchTotal {α : Type} [DecidableEq α] (a b : List α) (b2 : α → List ℕ) :
    ℕ → ℕ → ℕ → ℕ → ℕ → ℕ
  | 0, _, _, _, _ => 0
  | f + 1, alo, ahi, blo, bhi =>
    let r := find_longest_match a b b2 alo ahi blo bhi
    if r.2.2 = 0 then 0
    else r.2.2 + matchTotal a b b2 f alo r.1 blo r.2.1 +
      matchTotal a b b2 f (r.1 + r.2.2) ahi (r.2.1 + r.2.2) bhi

/-- `SequenceMatcher(None, a, b).ratio() = 2.0 * M / (len(a) + len(b))`
(`1.0` when both are empty, per `_calculate_ratio`). -/
def seqRatio {α : Type} [DecidableEq α] (a b : List α) : ℚ :=
  if a.length + b.length = 0 then 1
  else mkRat (2 * matchTotal a b (b2jGet b) a.length 0 a.length 0 b.length)
    (a.length + b.length)

/-! ## `title_similarity` -/

/-- Python's `str.strip()`: drop leading and trailing whitespace. -/
def stripWS (l : List Char) : List Char :=
  ((l.dropWhile Char.isWhitespace).reverse.dropWhile Char.isWhitespace).reverse

/-- A character kept by `re.sub(r'[^\w\s]', '', t)`: word characters
(letters, digits, underscore) and whitespace.  Character classes are
modelled for ASCII. -/
def isWordOrSpace (c : Char) : Bool :=
  c.isAlphanum || c = '_' || c.isWhitespace

/-- `normalize(t)` inside `title_similarity`:
`t.lower().strip()`, then remove every character that is neither a word
character nor whitespace. -/
def normalize (t : String) : List Char :=
  (stripWS (t.data.map Char.toLower)).filter isWordOrSpace

/-- `title_similarity(title1, title2)`:
`SequenceMatcher(None, normalize(title1), normalize(title2)).ratio()`. -/
def title_similarity (t1 t2 : String) : ℚ :=
  seqRatio (normalize t1) (normalize t2)

/-! ## `find_best_match` and `find_matching_chapter` -/

/-- A search result (`mangas` entry) as used by `find_best_match`. -/
structure Manga where
  id : ℕ
  title : String
deriving Repr, DecidableEq

/-- Loop of `find_best_match`: running best and best score
(`best_match = None`, `best_score = 0` initially; update only when
`score > best_score and score >= TITLE_MATCH_THRESHOLD`). -/
def findBestGo (orig : String) : List Manga → Option Manga → ℚ → Option Manga
  | [], best, _ => best
  | m :: rest, best, bs =>
    let score := title_similarity orig m.title
    if bs < score ∧ TITLE_MATCH_THRESHOLD ≤ score then
      findBestGo orig rest (some m) score
    else findBestGo orig rest best bs

/-- `find_best_match(original_title, search_results)`. -/
def find_best_match (orig : String) (results : List Manga) : Option Manga :=
  findBestGo orig results none 0

/-- A chapter (`fetchChapters` entry); `chapterNumber` is the exact
rational value of the double held by the Python runtime. -/
structure SChapter where
  id : ℕ
  name : String
  chapterNumber : ℚ
deriving Repr, DecidableEq

/-- `abs(chapter["chapterNumber"] - target) < 0.01` in binary64. -/
def chapterNumClose (x target : ℚ) : Bool :=
  decide (ratAbs (fpSub x target) < fp001)

/-- `find_matching_chapter(chapters, target_chapter_num)`: first chapter
within the floating-point tolerance, else `None`. -/
def find_matching_chapter (chapters : List SChapter) (target : ℚ) :
    Option SChapter :=
  chapters.find? (fun ch => chapterNumClose ch.chapterNumber target)

/-! ## Filesystem model, `list_existing_manga_folders`,
`resolve_destination_source_id`, `delete_alt_source_files`

The download root is a list of provider folders (`os.listdir` order =
list order), each a named list of title folders, each a named list of
file names. -/

/-- `DOWNLOADS_PATH` contents: provider folder name ↦ title folders ↦
file names. -/
abbrev FS : Type := List (String × List (String × List String))

/-- `filename.lower().endswith(".cbz")`. -/
def isCbz (f : String) : Bool :=
  List.isSuffixOf ['.', 'c', 'b', 'z'] (f.data.map Char.toLower)

/-- `len([f for f in os.listdir(folder_path) if f.lower().endswith(".cbz")])`. -/
def countCbz (files : List String) : ℕ := (files.filter isCbz).length

/-- One element of the list returned by `list_existing_manga_folders`:
`(source_folder, full_manga_path, cbz_count)` — the path is determined
by the two folder names, which we keep instead. -/
structure FolderMatch where
  sourceFolder : String
  titleFolder : String
  count : ℕ
deriving Repr, DecidableEq

/-- `list_existing_manga_folders(manga_title)`: every title folder under
every provider folder whose name scores `>= TITLE_MATCH_THRESHOLD`
against the title (note the argument order:
`title_similarity(folder, manga_title)`), with its archive count. -/
def list_existing_manga_folders (fs : FS) (title : String) : List FolderMatch :=
  fs.flatMap (fun sf => sf.2.filterMap (fun tf =>
    if TITLE_MATCH_THRESHOLD ≤ title_similarity tf.1 title then
      some ⟨sf.1, tf.1, countCbz tf.2⟩
    else none))

/-- Stable insertion of `x` into a descending-by-key list: `x` goes
after every element with an equal or larger key (this is the behaviour
of Python's stable `list.sort(key=..., reverse=True)`). -/
def insertDescBy {β : Type} (key : β → ℕ) (x : β) : List β → List β
  | [] => [x]
  | y :: ys => if key x ≤ key y then y :: insertDescBy key x ys else x :: y :: ys

/-- Python's `list.sort(key=..., reverse=True)`: stable sort by
descending key (equal keys keep their original relative order). -/
def pySortDesc {β : Type} (key : β → ℕ) (l : List β) : List β :=
  l.foldl (fun acc x => insertDescBy key x acc) []

/-- `resolve_destination_source_id(manga_title, default_source_id)`:
sort the matches by descending archive count (stable), take the first,
translate its provider-folder name via the catalogue
(`get_source_id_by_name`, whose result is supplied by the environment);
fall back to the default id when there are no matches or when the
translation fails. -/
def resolve_destination_source_id (fs : FS) (catalog : String → Option ℕ)
    (title : String) (dflt : ℕ) : ℕ :=
  match pySortDesc (fun m => m.count) (list_existing_manga_folders fs title) with
  | [] => dflt
  | m :: _ =>
    match catalog m.sourceFolder with
    | some cid => cid
    | none => dflt

/-- Spec-side definition, following the specification's words:
"select the folder with the highest archive count (ties broken by scan
order); translate its provider-folder name back to a provider id; if
translation fails, fall back to `defaultProviderId`".  `firstMaxBy`
keeps the first element attaining the maximum key. -/
def firstMaxBy {β : Type} (key : β → ℕ) (l : List β) : Option β :=
  l.foldl (fun acc x =>
    match acc with
    | none => some x
    | some y => if key y < key x then some x else acc) none

/-- Spec-side destination resolver (refinement target for
`resolve_destination_source_id`). -/
def resolveDestinationSpec (fs : FS) (catalog : String → Option ℕ)
    (title : String) (dflt : ℕ) : ℕ :=
  match firstMaxBy (fun m => m.count) (list_existing_manga_folders fs title) with
  | none => dflt
  | some m => (catalog m.sourceFolder).getD dflt

/-- A file path under the download root:
(provider folder, title folder, file name). -/
abbrev FPath : Type := String × String × String

/-- `os.path.exists(cbz_file)`. -/
def fsFileExists (fs : FS) (p : FPath) : Bool :=
  fs.any (fun sf => decide (sf.1 = p.1) &&
    sf.2.any (fun tf => decide (tf.1 = p.2.1) && tf.2.any (fun f => decide (f = p.2.2))))

/-- `os.remove(cbz_file)`. -/
def fsRemoveFile (fs : FS) (p : FPath) : FS :=
  fs.map (fun sf =>
    if sf.1 = p.1 then
      (sf.1, sf.2.map (fun tf =>
        if tf.1 = p.2.1 then (tf.1, tf.2.filter (fun f => decide (f ≠ p.2.2)))
        else tf))
    else sf)

/-- `os.path.exists(manga_path)` for a title folder. -/
def fsDirExists (fs : FS) (sf tf : String) : Bool :=
  fs.any (fun s => decide (s.1 = sf) && s.2.any (fun t => decide (t.1 = tf)))

/-- `os.listdir(manga_path)` (file names in the title folder). -/
def fsListTitle (fs : FS) (sf tf : String) : List String :=
  (fs.filter (fun s => decide (s.1 = sf))).flatMap
    (fun s => (s.2.filter (fun t => decide (t.1 = tf))).flatMap (fun t => t.2))

/-- `os.rmdir(manga_path)` / `shutil.rmtree(manga_path)`. -/
def fsRemoveTitleDir (fs : FS) (sf tf : String) : FS :=
  fs.map (fun s =>
    if s.1 = sf then (s.1, s.2.filter (fun t => decide (t.1 ≠ tf))) else s)

/-- `os.path.exists(source_path)`. -/
def fsSrcDirExists (fs : FS) (sf : String) : Bool :=
  fs.any (fun s => decide (s.1 = sf))

/-- `os.listdir(source_path)` (title folder names). -/
def fsListSrc (fs : FS) (sf : String) : List String :=
  (fs.filter (fun s => decide (s.1 = sf))).flatMap (fun s => s.2.map (fun t => t.1))

/-- `os.rmdir(source_path)`. -/
def fsRemoveSrcDir (fs : FS) (sf : String) : FS :=
  fs.filter (fun s => decide (s.1 ≠ sf))

/-- `delete_alt_source_files(source_id, manga_title, cbz_file)`:
if a `cbz_file` is given and exists, delete just that file, then remove
the title folder only if it is now empty; otherwise (`elif`), remove the
whole title folder if it exists; finally remove the provider folder if
it is empty.  `sourceFolder` is `get_source_folder(source_id)`. -/
def delete_alt_source_files (fs : FS) (sourceFolder mangaTitle : String)
    (cbz : Option FPath) : FS :=
  let fs1 :=
    match cbz with
    | some p =>
      if fsFileExists fs p then
        let fsA := fsRemoveFile fs p
        if fsDirExists fsA sourceFolder mangaTitle ∧
            (fsListTitle fsA sourceFolder mangaTitle).isEmpty then
          fsRemoveTitleDir fsA sourceFolder mangaTitle
        else fsA
      else if fsDirExists fs sourceFolder mangaTitle then
        fsRemoveTitleDir fs sourceFolder mangaTitle
      else fs
    | none =>
      if fsDirExists fs sourceFolder mangaTitle then
        fsRemoveTitleDir fs sourceFolder mangaTitle
      else fs
  if fsSrcDirExists fs1 sourceFolder ∧ (fsListSrc fs1 sourceFolder).isEmpty then
    fsRemoveSrcDir fs1 sourceFolder
  else fs1

/-- All file paths present in a filesystem (with multiplicity per
folder entry; folder names are unique in any real `os.listdir` tree). -/
def fsFiles (fs : FS) : List FPath :=
  fs.flatMap (fun sf => sf.2.flatMap (fun tf => tf.2.map (fun f => (sf.1, tf.1, f))))

/-! ## The main loop as a step function

One iteration of `main`'s `while True:` body, split in the order the
code performs it:
1. `check_active_downloads` + finalisation of completed downloads,
2. `pending_detection` cleanup,
3. discovery of new failures and `start_fallback_download` calls,
4. periodic cleanup of `processed_failures` / `tried_sources_per_failure`.

All external observations of one iteration are collected in `Env`:
queue snapshots, clock readings, search/chapter results, the success of
each external call.  Distinct clock readings within one iteration are
modelled by separate fields (`nowCheck`, `nowFin`, `nowPending`,
`nowStart`). -/

/-- A failure identity: `f"{manga_id}_{chapter_id}"` (the pair renders
the composite string key; the f-string is never empty, so Python's
`if failure_key:` truthiness test is always true). -/
abbrev Key : Type := ℕ × ℕ

/-- State of a queue entry as observed by `get_download_status`;
`downloading` stands for any state that is neither `FINISHED` nor
`ERROR`. -/
inductive DState where
  | finished
  | error
  | downloading
deriving Repr, DecidableEq

/-- One entry of `_active_fallback_downloads` (keyed by the alternate
chapter id). -/
structure ActiveInfo where
  sourceId : ℕ
  mangaTitle : String
  chapterName : String
  startTime : ℤ
  destSourceId : ℕ
  origMangaTitle : String
  origChapterName : String
  failedChapterId : ℕ
  failureKey : Key

/-- One ERROR entry of the download queue as consumed by `main`
(`item["manga"]`, `item["chapter"]`). -/
structure FailedItem where
  mangaId : ℕ
  mangaTitle : String
  sourceId : ℕ
  chapterId : ℕ
  chapterName : String
  chapterNumber : ℚ

/-- `f"{item['manga']['id']}_{item['chapter']['id']}"`. -/
def keyOf (it : FailedItem) : Key := (it.mangaId, it.chapterId)

/-- One entry of `tried_sources_per_failure`. -/
structure RetryRec where
  sources : List ℕ
  originalSource : ℕ
  loops : ℕ
deriving Repr, DecidableEq

/-- External observations of one poll cycle. -/
structure Env where
  nowCheck : ℤ
  queue : ℕ → Option DState
  finalizeOk : ℕ → Bool
  nowFin : ℤ
  failedKeysCheck : List Key
  nowPending : ℤ
  failedItems : List FailedItem
  fs : FS
  catalog : String → Option ℕ
  search : String → ℕ → List Manga
  chapters : ℕ → List SChapter
  startOk : ℕ → Bool
  nowStart : ℤ

/-- Configuration: `SOURCE_PRIORITY`, `MAX_CONCURRENT_FALLBACKS`,
`MAX_SOURCE_RETRY_LOOPS`. -/
structure Config where
  priority : List ℕ
  cap : ℕ
  maxLoops : ℕ

/-- The engine's mutable state: `_active_fallback_downloads`,
`processed_failures`, `tried_sources_per_failure`, `pending_detection`,
`pending_detection_times`. -/
structure LoopState where
  active : List (ℕ × ActiveInfo)
  processed : List Key
  retry : List (Key × RetryRec)
  pending : List Key
  pendingTimes : List (Key × ℤ)

/-- The state at process start. -/
def initState : LoopState := ⟨[], [], [], [], []⟩

/-- Association-list lookup (Python dict access). -/
def alistLookup {κ β : Type} [DecidableEq κ] (l : List (κ × β)) (k : κ) :
    Option β :=
  (l.find? (fun e => decide (e.1 = k))).map (fun e => e.2)

/-- Python dict assignment: replace in place if the key exists
(keeping its position), else append. -/
def alistInsert {κ β : Type} [DecidableEq κ] (l : List (κ × β)) (k : κ)
    (v : β) : List (κ × β) :=
  if (l.find? (fun e => decide (e.1 = k))).isSome then
    l.map (fun e => if e.1 = k then (k, v) else e)
  else l ++ [(k, v)]

/-- Python dict/set `del` / `discard`. -/
def alistErase {κ β : Type} [DecidableEq κ] (l : List (κ × β)) (k : κ) :
    List (κ × β) :=
  l.filter (fun e => decide (e.1 ≠ k))

/-- Python `set.add`. -/
def addIfAbsent {κ : Type} [DecidableEq κ] (l : List κ) (k : κ) : List κ :=
  if k ∈ l then l else l ++ [k]

/-- `DOWNLOAD_WAIT_TIMEOUT = 300`. -/
def DOWNLOAD_WAIT_TIMEOUT : ℤ := 300

/-- `check_active_downloads()`: classify each tracked download
(in insertion order) as timed out, completed (gone from the queue or
`FINISHED`), failed (`ERROR`), or still running; remove completed and
failed entries.  Returns the completed entries (insertion order) and
the remaining map. -/
def check_active_downloads (queue : ℕ → Option DState) (now : ℤ)
    (active : List (ℕ × ActiveInfo)) :
    List (ℕ × ActiveInfo) × List (ℕ × ActiveInfo) :=
  let cls := active.foldl
    (fun (acc : List (ℕ × ActiveInfo) × List ℕ) e =>
      if DOWNLOAD_WAIT_TIMEOUT < now - e.2.startTime then
        (acc.1, acc.2 ++ [e.1])
      else
        match queue e.1 with
        | none => (acc.1 ++ [e], acc.2)
        | some DState.finished => (acc.1 ++ [e], acc.2)
        | some DState.error => (acc.1, acc.2 ++ [e.1])
        | some DState.downloading => acc) ([], [])
  let removed := cls.1.map (fun e => e.1) ++ cls.2
  (cls.1, active.filter (fun e => !(removed.contains e.1)))

/-- The provider loop of `start_fallback_download`: walk
`SOURCE_PRIORITY`, skipping the destination and already-tried sources;
for each remaining source: search (empty → next), `find_best_match`
(none → next), `fetch_chapters` (empty → next), `find_matching_chapter`
(none → next), then `start_download` — on failure append the source to
the tried list and continue, on success record the download in
`_active_fallback_downloads` (keyed by the alternate chapter id) and
return the source id. -/
def startFallbackGo (env : Env) (dest : ℕ) (title : String)
    (chapterNum : ℚ) (chapterName : String) (failedChapterId : ℕ) (k : Key) :
    List ℕ → List ℕ → List (ℕ × ActiveInfo) →
    Option ℕ × List ℕ × List (ℕ × ActiveInfo)
  | [], tried, active => (none, tried, active)
  | s :: rest, tried, active =>
    if s = dest then
      startFallbackGo env dest title chapterNum chapterName failedChapterId k
        rest tried active
    else if s ∈ tried then
      startFallbackGo env dest title chapterNum chapterName failedChapterId k
        rest tried active
    else
      let results := env.search title s
      if results.isEmpty then
        startFallbackGo env dest title chapterNum chapterName failedChapterId k
          rest tried active
      else
        match find_best_match title results with
        | none =>
          startFallbackGo env dest title chapterNum chapterName failedChapterId k
            rest tried active
        | some m =>
          let chs := env.chapters m.id
          if chs.isEmpty then
            startFallbackGo env dest title chapterNum chapterName failedChapterId k
              rest tried active
          else
            match find_matching_chapter chs chapterNum with
            | none =>
              startFallbackGo env dest title chapterNum chapterName failedChapterId k
                rest tried active
            | some tc =>
              if env.startOk tc.id then
                (some s, tried,
                  alistInsert active tc.id
                    ⟨s, m.title, tc.name, env.nowStart, dest, title,
                      chapterName, failedChapterId, k⟩)
              else
                startFallbackGo env dest title chapterNum chapterName
                  failedChapterId k rest (tried ++ [s]) active

/-- `start_fallback_download(failed_item, tried_sources, failure_key)`:
resolve the destination source, then run the provider loop.  Returns the
started source id (or none), the tried list (mutated in place by the
Python code), and the updated active map. -/
def start_fallback_download (cfg : Config) (env : Env) (item : FailedItem)
    (tried : List ℕ) (k : Key) (active : List (ℕ × ActiveInfo)) :
    Option ℕ × List ℕ × List (ℕ × ActiveInfo) :=
  let dest := resolve_destination_source_id env.fs env.catalog
    item.mangaTitle item.sourceId
  startFallbackGo env dest item.mangaTitle item.chapterNumber
    item.chapterName item.chapterId k cfg.priority tried active

/-- Phase 1 of one loop iteration: reconcile active downloads, finalise
the completed ones; on finalisation success move the failure key to
`pending_detection` (recording the time) and drop its retry record. -/
def phase1 (env : Env) (st : LoopState) : LoopState :=
  let ca := check_active_downloads env.queue env.nowCheck st.active
  ca.1.foldl
    (fun s e =>
      if env.finalizeOk e.1 then
        { s with
          pending := addIfAbsent s.pending e.2.failureKey,
          pendingTimes := alistInsert s.pendingTimes e.2.failureKey env.nowFin,
          retry := alistErase s.retry e.2.failureKey }
      else s)
    { st with active := ca.2 }

/-- Grace period of the detection waiter (120 s). -/
def PENDING_TIMEOUT : ℤ := 120

/-- Phase 2: for every pending key, if it is no longer among the failed
downloads, or its grace period has elapsed, remove it from pending and
mark it processed. -/
def phase2 (env : Env) (st : LoopState) : LoopState :=
  st.pending.foldl
    (fun s k =>
      if k ∈ env.failedKeysCheck then
        if PENDING_TIMEOUT <
            env.nowPending - ((alistLookup s.pendingTimes k).getD env.nowPending) then
          { s with
            pending := s.pending.filter (fun x => decide (x ≠ k)),
            pendingTimes := alistErase s.pendingTimes k,
            processed := addIfAbsent s.processed k }
        else s
      else
        { s with
          pending := s.pending.filter (fun x => decide (x ≠ k)),
          pendingTimes := alistErase s.pendingTimes k,
          processed := addIfAbsent s.processed k })
    st

/-- Processing of one item of `to_process`: ensure a retry record
exists (capturing the item's source id as original on first sight),
override the item's source id with the recorded original, call
`start_fallback_download`; on success append the used source to the
record, on failure check for exhaustion and either advance the loop
counter (marking processed at `maxLoops`) or reset the tried list. -/
def processItem (cfg : Config) (env : Env) (st : LoopState)
    (item : FailedItem) : LoopState :=
  let k := keyOf item
  let retry1 :=
    if (alistLookup st.retry k).isSome then st.retry
    else st.retry ++ [(k, ⟨[], item.sourceId, 0⟩)]
  let rec0 := (alistLookup retry1 k).getD ⟨[], item.sourceId, 0⟩
  let item' := { item with sourceId := rec0.originalSource }
  let r := start_fallback_download cfg env item' rec0.sources k st.active
  match r.1 with
  | some sid =>
    { st with
      active := r.2.2,
      retry := alistInsert retry1 k { rec0 with sources := r.2.1 ++ [sid] } }
  | none =>
    if cfg.priority.length - 1 ≤ r.2.1.length then
      if cfg.maxLoops ≤ rec0.loops + 1 then
        { st with
          active := r.2.2,
          retry := alistInsert retry1 k
            { rec0 with sources := r.2.1, loops := rec0.loops + 1 },
          processed := addIfAbsent st.processed k }
      else
        { st with
          active := r.2.2,
          retry := alistInsert retry1 k
            { rec0 with sources := [], loops := rec0.loops + 1 } }
    else
      { st with
        active := r.2.2,
        retry := alistInsert retry1 k { rec0 with sources := r.2.1 } }

/-- `new_failures[:available_slots]`: the failed items that are neither
processed nor pending, truncated to the remaining capacity. -/
def selectToProcess (cfg : Config) (env : Env) (st : LoopState) :
    List FailedItem :=
  (env.failedItems.filter (fun it =>
    decide (keyOf it ∉ st.processed) && decide (keyOf it ∉ st.pending))).take
    (cfg.cap - st.active.length)

/-- Phase 3: when under the concurrency cap, process the selected new
failures in queue order. -/
def phase3 (cfg : Config) (env : Env) (st : LoopState) : LoopState :=
  if st.active.length < cfg.cap then
    (selectToProcess cfg env st).foldl (processItem cfg env) st
  else st

/-- Phase 4: `if len(processed_failures) > 1000: processed_failures.clear();
tried_sources_per_failure.clear()`. -/
def phase4 (st : LoopState) : LoopState :=
  if 1000 < st.processed.length then
    { st with processed := [], retry := [] }
  else st

/-- One loop iteration before the periodic cleanup. -/
def cycleA (cfg : Config) (env : Env) (st : LoopState) : LoopState :=
  phase3 cfg env (phase2 env (phase1 env st))

/-- One full loop iteration. -/
def mainCycle (cfg : Config) (env : Env) (st : LoopState) : LoopState :=
  phase4 (cycleA cfg env st)

/-- A run of consecutive poll cycles. -/
def runCycles (cfg : Config) : List Env → LoopState → LoopState
  | [], st => st
  | e :: rest, st => runCycles cfg rest (mainCycle cfg e st)

/-! ## Concrete data used by counterexamples and witnesses -/

/-- The 9.99 chapter of scenario C. -/
def chapter999 : SChapter := ⟨41, "Ch 9.99", fpRound (mkRat 999 100)⟩

/-- The 10.0 chapter of scenario C. -/
def chapter10 : SChapter := ⟨42, "Ch 10", fpRound 10⟩

/-- The 10.5 chapter of scenario C. -/
def chapter105 : SChapter := ⟨43, "Ch 10.5", fpRound (mkRat 21 2)⟩

/-- Three provider folders holding the same title with 2, 2 and 1
archives (scenario for C5's tie-breaking). -/
def fsTie : FS :=
  [("S1", [("aa", ["1.cbz", "2.cbz"])]),
   ("S2", [("aa", ["3.cbz", "4.cbz"])]),
   ("S3", [("aa", ["5.cbz"])])]

/-- Catalogue translating the three provider folder names. -/
def catTie : String → Option ℕ := fun s =>
  if s = "S1" then some 11
  else if s = "S2" then some 12
  else if s = "S3" then some 13
  else none

/-- A provider folder holding a title with two archives (witness data
for C9). -/
def fsPair : FS := [("S", [("T", ["a.cbz", "b.cbz"])])]

/-- Configuration for the C1 counterexample: two alternate providers,
cap 3, three retry loops. -/
def cfgA : Config := ⟨[1, 2], 3, 3⟩

/-- A failed item with key `(5, 6)` whose provider `9` is not in the
priority list. -/
def itemA : FailedItem := ⟨5, "t", 9, 6, "c", fpRound 1⟩

/-- First poll cycle for the C1/C8 counterexamples: the failure is
seen, the first alternate provider has a perfect-match title with a
matching chapter, and the start succeeds (alternate chapter id 201). -/
def envA1 : Env where
  nowCheck := 0
  queue := fun _ => some DState.downloading
  finalizeOk := fun _ => false
  nowFin := 0
  failedKeysCheck := []
  nowPending := 0
  failedItems := [itemA]
  fs := []
  catalog := fun _ => none
  search := fun _ _ => [⟨100, "t"⟩]
  chapters := fun _ => [⟨201, "c1", fpRound 1⟩]
  startOk := fun _ => true
  nowStart := 0

/-- Second poll cycle: the first download is still running
(`downloading`, not timed out), the same failure is still reported, and
the second provider also starts (alternate chapter id 202). -/
def envA2 : Env := { envA1 with chapters := fun _ => [⟨202, "c2", fpRound 1⟩] }

/-- Configuration for the C8 counterexample: two providers, cap 2. -/
def cfgB : Config := ⟨[1, 2], 2, 3⟩

/-- C8's failed item: key `(5, 6)`, original provider `0`, which is not
in the priority list. -/
def itemB : FailedItem := ⟨5, "t", 0, 6, "c", fpRound 1⟩

/-- C8 counterexample cycles (same external world as C1's). -/
def envB1 : Env := { envA1 with failedItems := [itemB] }

/-- Second C8 cycle. -/
def envB2 : Env := { envA2 with failedItems := [itemB] }

/-- Configuration for the C8 witness: two providers, the destination
resolves into the priority list. -/
def cfgW : Config := ⟨[1, 2], 3, 3⟩

/-- Catalogue translating folder `S1` to provider 1 (in the priority
list). -/
def catW : String → Option ℕ := fun s => if s = "S1" then some 1 else none

/-- C8 witness failed item: title `aa` (which has folders on disk). -/
def itemW : FailedItem := ⟨3, "aa", 7, 4, "c", fpRound 1⟩

/-- C8 witness cycle: the destination resolves to provider 1 for every
default (folders exist for `aa`), provider 2 finds nothing. -/
def envW : Env where
  nowCheck := 0
  queue := fun _ => none
  finalizeOk := fun _ => false
  nowFin := 0
  failedKeysCheck := []
  nowPending := 0
  failedItems := [itemW]
  fs := fsTie
  catalog := catW
  search := fun _ _ => []
  chapters := fun _ => []
  startOk := fun _ => false
  nowStart := 0

/-- The retry-vs-pending disjointness invariant. -/
def RPDisj (st : LoopState) : Prop :=
  ∀ k : Key, (alistLookup st.retry k).isSome = true → k ∉ st.pending

/-- A failed item of the cleanup scenario: manga id `i`, chapter id 0,
source id 0, a title with no folder on disk. -/
def mkItem (i : ℕ) : FailedItem := ⟨i, "t", 0, 0, "c", 0⟩

/-- The first `n` failed items of the flooding cycle. -/
def items4 (n : ℕ) : List FailedItem := (List.range n).map mkItem

/-- Their failure keys. -/
def keys4 (n : ℕ) : List Key := (List.range n).map (fun i => (i, 0))

/-- Their retry records after one exhausted provider round. -/
def recs4 (n : ℕ) : List (Key × RetryRec) :=
  (List.range n).map (fun i => ((i, 0), ⟨[], 0, 1⟩))

/-- Priority list `[0]`, cap 1001, a single retry loop. -/
def cfg4 : Config := ⟨[0], 1001, 1⟩

/-- A cycle observing 1001 failed items at once, with an empty
filesystem and a provider that returns no search results. -/
def envC1 : Env where
  nowCheck := 0
  queue := fun _ => none
  finalizeOk := fun _ => false
  nowFin := 0
  failedKeysCheck := []
  nowPending := 0
  failedItems := items4 1001
  fs := []
  catalog := fun _ => none
  search := fun _ _ => []
  chapters := fun _ => []
  startOk := fun _ => false
  nowStart := 0

/-- A later cycle observing only the first failed item again. -/
def envC2 : Env where
  nowCheck := 0
  queue := fun _ => none
  finalizeOk := fun _ => false
  nowFin := 0
  failedKeysCheck := []
  nowPending := 0
  failedItems := [mkItem 0]
  fs := []
  catalog := fun _ => none
  search := fun _ _ => []
  chapters := fun _ => []
  startOk := fun _ => false
  nowStart := 0

/-- A state in which the key `(0, 0)` is already marked processed. -/
def st4w : LoopState := ⟨[], [(0, 0)], [], [], []⟩

/-- The value the dynamic-programming loop of `find_longest_match`
stores at cell `(i, j)` when it visits it: the `j2len` recurrence
`newj2len[j] = j2len.get(j - 1, 0) + 1`, where row `i - 1` contributed
`j - 1` exactly when it visited that cell (first row: empty `j2len`). -/
def chainD {α : Type} [DecidableEq α] (a : List α) (b2 : α → List ℕ)
    (lo hi : ℕ) : ℕ → ℕ → ℕ
  | 0, _ => 1
  | i + 1, j =>
    if lo ≤ i ∧ 0 < j ∧ (j - 1) ∈ jsRow a b2 lo hi i then
      chainD a b2 lo hi i (j - 1) + 1
    else 1

/-! ## Theorems -/

theorem threshold_pos : (0 : ℚ) < TITLE_MATCH_THRESHOLD := by decide

/-- `findBestGo` returns `none` iff it started with no best and no
candidate passes the update test. -/
theorem findBestGo_eq_none (t : String) :
    ∀ (l : List Manga) (best : Option Manga) (bs : ℚ),
      findBestGo t l best bs = none ↔
        best = none ∧ ∀ m ∈ l,
          ¬(bs < title_similarity t m.title ∧
            TITLE_MATCH_THRESHOLD ≤ title_similarity t m.title) := by
  intro l
  induction l with
  | nil => intro best bs; simp [findBestGo]
  | cons x r ih =>
    intro best bs
    by_cases h : bs < title_similarity t x.title ∧
        TITLE_MATCH_THRESHOLD ≤ title_similarity t x.title
    · rw [findBestGo, if_pos h, ih]
      constructor
      · rintro ⟨hfalse, -⟩
        exact absurd hfalse (by simp)
      · rintro ⟨-, hall⟩
        exact absurd h (hall x (List.mem_cons_self x r))
    · rw [findBestGo, if_neg h, ih]
      constructor
      · rintro ⟨h1, h2⟩
        exact ⟨h1, by
          intro m hm
          rcases List.mem_cons.mp hm with rfl | hm
          · exact h
          · exact h2 m hm⟩
      · rintro ⟨h1, h2⟩
        exact ⟨h1, fun m hm => h2 m (List.mem_cons_of_mem x hm)⟩

/-- If `findBestGo` returns a candidate other than the incoming best,
that candidate occurs in the list, strictly beats the incoming score,
meets the threshold, and strictly beats every earlier list element. -/
theorem findBestGo_first (t : String) :
    ∀ (l : List Manga) (best : Option Manga) (bs : ℚ) (m : Manga),
      findBestGo t l best bs = some m → best ≠ some m →
      ∃ l₁ l₂, l = l₁ ++ m :: l₂ ∧
        bs < title_similarity t m.title ∧
        TITLE_MATCH_THRESHOLD ≤ title_similarity t m.title ∧
        ∀ x ∈ l₁, title_similarity t x.title < title_similarity t m.title := by
  intro l
  induction l with
  | nil =>
    intro best bs m h hne
    rw [findBestGo] at h
    exact absurd h hne
  | cons x r ih =>
    intro best bs m h hne
    by_cases hc : bs < title_similarity t x.title ∧
        TITLE_MATCH_THRESHOLD ≤ title_similarity t x.title
    · rw [findBestGo, if_pos hc] at h
      by_cases hx : x = m
      · subst hx
        exact ⟨[], r, rfl, hc.1, hc.2, by simp⟩
      · obtain ⟨l₁, l₂, hl, hbs, hthr, hall⟩ :=
          ih (some x) (title_similarity t x.title) m h
            (by simpa using fun e => hx e)
        refine ⟨x :: l₁, l₂, by rw [hl]; rfl, lt_trans hc.1 hbs, hthr, ?_⟩
        intro y hy
        rcases List.mem_cons.mp hy with rfl | hy
        · exact hbs
        · exact hall y hy
    · rw [findBestGo, if_neg hc] at h
      obtain ⟨l₁, l₂, hl, hbs, hthr, hall⟩ := ih best bs m h hne
      refine ⟨x :: l₁, l₂, by rw [hl]; rfl, hbs, hthr, ?_⟩
      intro y hy
      rcases List.mem_cons.mp hy with rfl | hy
      · rcases not_and_or.mp hc with hc1 | hc1
        · exact lt_of_le_of_lt (not_lt.mp hc1) hbs
        · exact lt_of_lt_of_le (not_le.mp hc1) hthr
      · exact hall y hy

/-- Result of `findBestGo` under the running-state invariant:
it meets the threshold, dominates the incoming score and every list
element's score. -/
theorem findBestGo_max (t : String) :
    ∀ (l : List Manga) (best : Option Manga) (bs : ℚ),
      ((best = none ∧ bs = 0) ∨
        (∃ mb, best = some mb ∧ bs = title_similarity t mb.title ∧
          TITLE_MATCH_THRESHOLD ≤ bs)) →
      ∀ m, findBestGo t l best bs = some m →
        TITLE_MATCH_THRESHOLD ≤ title_similarity t m.title ∧
        bs ≤ title_similarity t m.title ∧
        ∀ x ∈ l, title_similarity t x.title ≤ title_similarity t m.title := by
  intro l
  induction l with
  | nil =>
    intro best bs hinv m h
    rw [findBestGo] at h
    rcases hinv with ⟨hb, _⟩ | ⟨mb, hb, hbs, hthr⟩
    · rw [hb] at h; exact absurd h (by simp)
    · rw [hb] at h
      obtain rfl : mb = m := by injection h
      exact ⟨hbs ▸ hthr, le_of_eq hbs, by simp⟩
  | cons x r ih =>
    intro best bs hinv m h
    by_cases hc : bs < title_similarity t x.title ∧
        TITLE_MATCH_THRESHOLD ≤ title_similarity t x.title
    · rw [findBestGo, if_pos hc] at h
      obtain ⟨hthr, hge, hall⟩ :=
        ih (some x) (title_similarity t x.title)
          (Or.inr ⟨x, rfl, rfl, hc.2⟩) m h
      refine ⟨hthr, le_of_lt (lt_of_lt_of_le hc.1 hge), ?_⟩
      intro y hy
      rcases List.mem_cons.mp hy with rfl | hy
      · exact hge
      · exact hall y hy
    · rw [findBestGo, if_neg hc] at h
      obtain ⟨hthr, hge, hall⟩ := ih best bs hinv m h
      refine ⟨hthr, hge, ?_⟩
      intro y hy
      rcases List.mem_cons.mp hy with rfl | hy
      · rcases not_and_or.mp hc with hc1 | hc1
        · exact le_trans (not_lt.mp hc1) hge
        · exact le_trans (le_of_lt (not_le.mp hc1)) hthr
      · exact hall y hy

/-- C6.  `find_best_match` returns `none` iff no candidate scores at
least 0.85 against the target; otherwise it returns a candidate of the
list whose score is at least 0.85 and maximal among all candidates, and
every candidate listed before it scores strictly less (first-seen
tie-breaking: a later candidate replaces the best only with a strictly
greater score); in particular the returned candidate never scores below
0.85. -/
theorem c6_find_best_match_threshold_max_first :
    (∀ (t : String) (l : List Manga),
      find_best_match t l = none ↔
        ∀ m ∈ l, title_similarity t m.title < TITLE_MATCH_THRESHOLD) ∧
    (∀ (t : String) (l : List Manga) (m : Manga),
      find_best_match t l = some m →
        m ∈ l ∧
        TITLE_MATCH_THRESHOLD ≤ title_similarity t m.title ∧
        (∀ x ∈ l, title_similarity t x.title ≤ title_similarity t m.title) ∧
        ∃ l₁ l₂, l = l₁ ++ m :: l₂ ∧
          ∀ x ∈ l₁, title_similarity t x.title < title_similarity t m.title) := by
  constructor
  · intro t l
    rw [find_best_match, findBestGo_eq_none]
    simp only [true_and]
    constructor
    · intro h m hm
      by_contra hlt
      exact h m hm ⟨lt_of_lt_of_le threshold_pos (not_lt.mp hlt),
        not_lt.mp hlt⟩
    · intro h m hm
      exact fun hc => absurd hc.2 (not_le.mpr (h m hm))
  · intro t l m h
    have h1 := findBestGo_max t l none 0 (Or.inl ⟨rfl, rfl⟩) m h
    have h2 := findBestGo_first t l none 0 m h (by simp)
    obtain ⟨l₁, l₂, hl, _, _, hall⟩ := h2
    exact ⟨hl ▸ List.mem_append_right l₁ (List.mem_cons_self m l₂),
      h1.1, h1.2.2, l₁, l₂, hl, hall⟩

/-- Witness for C6 at a concrete input. -/
theorem c6_witness :
    (⟨1, "t"⟩ : Manga) ∈ ([⟨1, "t"⟩] : List Manga) ∧
    TITLE_MATCH_THRESHOLD ≤ title_similarity ("t") ("t") :=
  have h := c6_find_best_match_threshold_max_first.2 ("t")
    [⟨1, "t"⟩] ⟨1, "t"⟩ (by decide)
  ⟨h.1, h.2.1⟩

/-- C10.  When both normalised titles are empty, `title_similarity`
returns 1 — `SequenceMatcher` ratio of two empty sequences — so two
entirely different punctuation-only titles are a perfect match and clear
the 0.85 threshold inside `find_best_match`. -/
theorem c10_empty_normalized_perfect_match :
    (∀ a b : String, normalize a = [] → normalize b = [] →
      title_similarity a b = 1) ∧
    find_best_match ("!!!") [⟨7, "??,"⟩] = some ⟨7, "??,"⟩ := by
  constructor
  · intro a b ha hb
    rw [title_similarity, ha, hb]
    rfl
  · decide

/-- Witness for C10 at a concrete input: two punctuation-only titles. -/
theorem c10_witness : title_similarity ("!!!") ("??,") = 1 :=
  c10_empty_normalized_perfect_match.1 ("!!!") ("??,") (by decide) (by decide)

/-- Counterexample to C3.  For target `10.0` and candidates
`[9.99, 10.0, 10.5]` the code returns the chapter numbered 9.99, not the
chapter numbered 10.0: in binary64, `abs(9.99 - 10.0)` evaluates to
`0.00999999999999978…`, which IS `< 0.01`, so the first candidate
already matches. -/
theorem c3_counterexample :
    find_matching_chapter [chapter999, chapter10, chapter105] (fpRound 10) =
      some chapter999 ∧ chapter999.chapterNumber ≠ fpRound 10 := by
  constructor
  · decide
  · decide

/-- C3 (amended).  `find_matching_chapter` returns the first chapter in
candidate order whose binary64 chapter number is within the double
`0.01` of the target under double subtraction, and `none` when no
candidate is; for target `10.0` with candidates `[9.99, 10.0, 10.5]` it
returns the chapter numbered 9.99 (whose double distance to 10.0 is
just below 0.01), and for candidates `[9.5, 10.6]` it returns none. -/
theorem c3_first_within_tolerance :
    (∀ (l : List SChapter) (t : ℚ) (c : SChapter),
      find_matching_chapter l t = some c →
        chapterNumClose c.chapterNumber t = true ∧
        ∃ l₁ l₂, l = l₁ ++ c :: l₂ ∧
          ∀ x ∈ l₁, chapterNumClose x.chapterNumber t = false) ∧
    (∀ (l : List SChapter) (t : ℚ),
      (∀ c ∈ l, chapterNumClose c.chapterNumber t = false) →
        find_matching_chapter l t = none) ∧
    find_matching_chapter [chapter999, chapter10, chapter105] (fpRound 10) =
      some chapter999 ∧
    find_matching_chapter [⟨1, "Ch 9.5", fpRound (mkRat 19 2)⟩,
      ⟨2, "Ch 10.6", fpRound (mkRat 53 5)⟩] (fpRound 10) = none := by
  refine ⟨?_, ?_, by decide, by decide⟩
  · intro l t c h
    rw [find_matching_chapter, List.find?_eq_some] at h
    obtain ⟨hp, l₁, l₂, hl, hall⟩ := h
    refine ⟨hp, l₁, l₂, hl, ?_⟩
    intro x hx
    simpa using hall x hx
  · intro l t h
    rw [find_matching_chapter, List.find?_eq_none]
    intro x hx
    simp [h x hx]

/-- Witness for C3 (amended) at a concrete input. -/
theorem c3_witness :
    chapterNumClose chapter999.chapterNumber (fpRound 10) = true ∧
    ∃ l₁ l₂, [chapter999] = l₁ ++ chapter999 :: l₂ ∧
      ∀ x ∈ l₁, chapterNumClose x.chapterNumber (fpRound 10) = false :=
  c3_first_within_tolerance.1 [chapter999] (fpRound 10) chapter999 (by decide)

/-- Head of a stable descending insertion: the new element takes the
head only when it strictly beats the old head's key. -/
theorem insertDescBy_head? {β : Type} (key : β → ℕ) (x : β) :
    ∀ acc : List β,
      (insertDescBy key x acc).head? =
        match acc.head? with
        | none => some x
        | some y => if key y < key x then some x else some y := by
  intro acc
  cases acc with
  | nil => rfl
  | cons y ys =>
    by_cases h : key x ≤ key y
    · rw [insertDescBy, if_pos h]
      simp [Option.some.injEq, if_neg (not_lt.mpr h)]
    · rw [insertDescBy, if_neg h]
      simp [if_pos (not_le.mp h)]

/-- The head of the fold building `pySortDesc` computes `firstMaxBy`
over the processed prefix. -/
theorem pySortDesc_foldl_head? {β : Type} (key : β → ℕ) :
    ∀ (xs : List β) (acc : List β),
      ((xs.foldl (fun a x => insertDescBy key x a) acc).head?) =
        xs.foldl
          (fun o x =>
            match o with
            | none => some x
            | some y => if key y < key x then some x else o) acc.head? := by
  intro xs
  induction xs with
  | nil => intro acc; rfl
  | cons x xs ih =>
    intro acc
    rw [List.foldl_cons, List.foldl_cons, ih, insertDescBy_head?]
    cases acc with
    | nil => rfl
    | cons y ys =>
      by_cases h : key y < key x <;> simp [h]

/-- `pySortDesc`'s first element is the first-seen maximum. -/
theorem pySortDesc_head? {β : Type} (key : β → ℕ) (l : List β) :
    (pySortDesc key l).head? = firstMaxBy key l := by
  rw [pySortDesc, firstMaxBy, pySortDesc_foldl_head? key l []]
  rfl

/-- C5.  `resolve_destination_source_id` coincides with the
specification's resolver: when matches exist it returns the provider id
translated from the folder with the highest archive count, ties at the
maximum going to the first folder in scan order, and falls back to the
default id when the translation fails.  In the concrete scenario with
archive counts `[2, 2, 1]` it picks the first of the two folders with
count 2; with an empty catalogue it returns the default id. -/
theorem c5_resolve_destination_first_max :
    (∀ (fs : FS) (catalog : String → Option ℕ) (title : String) (dflt : ℕ),
      resolve_destination_source_id fs catalog title dflt =
        resolveDestinationSpec fs catalog title dflt) ∧
    resolve_destination_source_id fsTie catTie ("aa") 99 = 11 ∧
    resolve_destination_source_id fsTie (fun _ => none) ("aa") 99 = 99 := by
  refine ⟨?_, by decide, by decide⟩
  intro fs catalog title dflt
  rw [resolve_destination_source_id, resolveDestinationSpec]
  have h := pySortDesc_head? (fun m => m.count)
    (list_existing_manga_folders fs title)
  cases hs : pySortDesc (fun m => m.count)
      (list_existing_manga_folders fs title) with
  | nil =>
    rw [hs] at h
    rw [← h]
    rfl
  | cons m rest =>
    rw [hs] at h
    rw [← h]
    rcases hc : catalog m.sourceFolder with _ | cid <;>
      simp [hc, List.head?_cons, Option.getD]


theorem mem_fsFiles (fs : FS) (qs qt qf : String) :
    ((qs, qt, qf) : FPath) ∈ fsFiles fs ↔
      ∃ se ∈ fs, se.1 = qs ∧ ∃ te ∈ se.2, te.1 = qt ∧ qf ∈ te.2 := by
  simp only [fsFiles, List.mem_flatMap, List.mem_map, Prod.mk.injEq]
  constructor
  · rintro ⟨se, hse, te, hte, f, hf, rfl, rfl, rfl⟩
    exact ⟨se, hse, rfl, te, hte, rfl, hf⟩
  · rintro ⟨se, hse, h1, te, hte, h2, hf⟩
    exact ⟨se, hse, te, hte, qf, hf, h1, h2, rfl⟩

theorem mem_fsRemoveFile (fs : FS) (ps pt pf qs qt qf : String) :
    ((qs, qt, qf) : FPath) ∈ fsFiles (fsRemoveFile fs (ps, pt, pf)) ↔
      ((qs, qt, qf) : FPath) ∈ fsFiles fs ∧ ¬(qs = ps ∧ qt = pt ∧ qf = pf) := by
  rw [mem_fsFiles, mem_fsFiles]
  simp only [fsRemoveFile, List.mem_map]
  constructor
  · rintro ⟨se, ⟨se0, hse0, rfl⟩, h1, te, hte, h2, hf⟩
    by_cases hs : se0.1 = ps
    · rw [if_pos hs] at h1 hte
      simp only at h1
      simp only [List.mem_map] at hte
      obtain ⟨te0, hte0, rfl⟩ := hte
      by_cases ht : te0.1 = pt
      · rw [if_pos ht] at h2 hf
        simp only at h2
        simp only [List.mem_filter, decide_eq_true_eq] at hf
        refine ⟨⟨se0, hse0, h1, te0, hte0, h2, hf.1⟩, ?_⟩
        rintro ⟨-, -, rfl⟩
        exact hf.2 rfl
      · rw [if_neg ht] at h2 hf
        exact ⟨⟨se0, hse0, h1, te0, hte0, h2, hf⟩,
          fun hc => ht (by rw [h2]; exact hc.2.1)⟩
    · rw [if_neg hs] at h1 hte
      exact ⟨⟨se0, hse0, h1, te, hte, h2, hf⟩,
        fun hc => hs (by rw [h1]; exact hc.1)⟩
  · rintro ⟨⟨se, hse, h1, te, hte, h2, hf⟩, hne⟩
    by_cases hs : se.1 = ps
    · refine ⟨_, ⟨se, hse, rfl⟩, ?_⟩
      rw [if_pos hs]
      by_cases ht : te.1 = pt
      · refine ⟨h1, (te.1, te.2.filter (fun f => decide (f ≠ pf))), ?_, h2, ?_⟩
        · simp only [List.mem_map]
          exact ⟨te, hte, by rw [if_pos ht]⟩
        · simp only [List.mem_filter, decide_eq_true_eq]
          refine ⟨hf, fun hfe => hne ⟨h1 ▸ hs, h2 ▸ ht, hfe⟩⟩
      · refine ⟨h1, te, ?_, h2, hf⟩
        simp only [List.mem_map]
        exact ⟨te, hte, by rw [if_neg ht]⟩
    · exact ⟨se, ⟨se, hse, by rw [if_neg hs]⟩, h1, te, hte, h2, hf⟩

theorem mem_fsRemoveTitleDir (fs : FS) (sf tf qs qt qf : String) :
    ((qs, qt, qf) : FPath) ∈ fsFiles (fsRemoveTitleDir fs sf tf) ↔
      ((qs, qt, qf) : FPath) ∈ fsFiles fs ∧ ¬(qs = sf ∧ qt = tf) := by
  rw [mem_fsFiles, mem_fsFiles]
  simp only [fsRemoveTitleDir, List.mem_map]
  constructor
  · rintro ⟨se, ⟨se0, hse0, rfl⟩, h1, te, hte, h2, hf⟩
    by_cases hs : se0.1 = sf
    · rw [if_pos hs] at h1 hte
      simp only at h1
      simp only [List.mem_filter, decide_eq_true_eq] at hte
      exact ⟨⟨se0, hse0, h1, te, hte.1, h2, hf⟩,
        fun hc => hte.2 (by rw [h2]; exact hc.2)⟩
    · rw [if_neg hs] at h1 hte
      exact ⟨⟨se0, hse0, h1, te, hte, h2, hf⟩,
        fun hc => hs (by rw [h1]; exact hc.1)⟩
  · rintro ⟨⟨se, hse, h1, te, hte, h2, hf⟩, hne⟩
    by_cases hs : se.1 = sf
    · refine ⟨_, ⟨se, hse, rfl⟩, ?_⟩
      rw [if_pos hs]
      refine ⟨h1, te, ?_, h2, hf⟩
      simp only [List.mem_filter, decide_eq_true_eq]
      exact ⟨hte, fun hte2 => hne ⟨h1 ▸ hs, h2 ▸ hte2⟩⟩
    · exact ⟨se, ⟨se, hse, by rw [if_neg hs]⟩, h1, te, hte, h2, hf⟩

theorem mem_fsRemoveSrcDir (fs : FS) (sf qs qt qf : String) :
    ((qs, qt, qf) : FPath) ∈ fsFiles (fsRemoveSrcDir fs sf) ↔
      ((qs, qt, qf) : FPath) ∈ fsFiles fs ∧ qs ≠ sf := by
  rw [mem_fsFiles, mem_fsFiles]
  simp only [fsRemoveSrcDir, List.mem_filter, decide_eq_true_eq]
  constructor
  · rintro ⟨se, ⟨hse, hns⟩, h1, te, hte, h2, hf⟩
    exact ⟨⟨se, hse, h1, te, hte, h2, hf⟩, fun hc => hns (by rw [h1]; exact hc)⟩
  · rintro ⟨⟨se, hse, h1, te, hte, h2, hf⟩, hne⟩
    exact ⟨se, ⟨hse, fun hc => hne (by rw [← h1]; exact hc)⟩, h1, te, hte, h2, hf⟩

theorem fsListTitle_nil (fs : FS) (sf tf : String) :
    fsListTitle fs sf tf = [] ↔
      ∀ qf : String, ((sf, tf, qf) : FPath) ∉ fsFiles fs := by
  rw [List.eq_nil_iff_forall_not_mem]
  constructor
  · intro h qf hq
    rw [mem_fsFiles] at hq
    obtain ⟨se, hse, h1, te, hte, h2, hf⟩ := hq
    refine h qf ?_
    simp only [fsListTitle, List.mem_flatMap, List.mem_filter, decide_eq_true_eq]
    exact ⟨se, ⟨hse, h1⟩, te, ⟨hte, h2⟩, hf⟩
  · intro h x hx
    simp only [fsListTitle, List.mem_flatMap, List.mem_filter, decide_eq_true_eq] at hx
    obtain ⟨se, ⟨hse, h1⟩, te, ⟨hte, h2⟩, hf⟩ := hx
    exact h x (by rw [mem_fsFiles]; exact ⟨se, hse, h1, te, hte, h2, hf⟩)

theorem fsListSrc_nil (fs : FS) (sf : String) :
    fsListSrc fs sf = [] →
      ∀ qt qf : String, ((sf, qt, qf) : FPath) ∉ fsFiles fs := by
  intro h qt qf hq
  rw [mem_fsFiles] at hq
  obtain ⟨se, hse, h1, te, hte, h2, hf⟩ := hq
  rw [List.eq_nil_iff_forall_not_mem] at h
  refine h te.1 ?_
  simp only [fsListSrc, List.mem_flatMap, List.mem_filter, List.mem_map,
    decide_eq_true_eq]
  exact ⟨se, ⟨hse, h1⟩, te, hte, rfl⟩

theorem mem_fsFiles_dirExists (fs : FS) (qs qt qf : String)
    (h : ((qs, qt, qf) : FPath) ∈ fsFiles fs) :
    fsDirExists fs qs qt = true := by
  rw [mem_fsFiles] at h
  obtain ⟨se, hse, h1, te, hte, h2, _⟩ := h
  simp only [fsDirExists, List.any_eq_true, Bool.and_eq_true, decide_eq_true_eq]
  exact ⟨se, hse, h1, te, hte, h2⟩

theorem mem_fsFiles_srcDirExists (fs : FS) (qs qt qf : String)
    (h : ((qs, qt, qf) : FPath) ∈ fsFiles fs) :
    fsSrcDirExists fs qs = true := by
  rw [mem_fsFiles] at h
  obtain ⟨se, hse, h1, _⟩ := h
  simp only [fsSrcDirExists, List.any_eq_true, decide_eq_true_eq]
  exact ⟨se, hse, h1⟩




theorem mem_fsRemoveFile' (fs : FS) (p q : FPath) :
    q ∈ fsFiles (fsRemoveFile fs p) ↔ q ∈ fsFiles fs ∧ q ≠ p := by
  obtain ⟨qs, qt, qf⟩ := q
  obtain ⟨ps, pt, pf⟩ := p
  rw [mem_fsRemoveFile]
  simp only [ne_eq, Prod.mk.injEq]

theorem mem_removeTitleDir_empty (fs : FS) (sf tf : String)
    (h : fsListTitle fs sf tf = []) (q : FPath) :
    q ∈ fsFiles (fsRemoveTitleDir fs sf tf) ↔ q ∈ fsFiles fs := by
  obtain ⟨qs, qt, qf⟩ := q
  rw [mem_fsRemoveTitleDir]
  constructor
  · exact fun hq => hq.1
  · intro hq
    refine ⟨hq, ?_⟩
    rintro ⟨rfl, rfl⟩
    exact (fsListTitle_nil fs qs qt).mp h qf hq

theorem mem_removeSrcDir_empty (fs : FS) (sf : String)
    (h : fsListSrc fs sf = []) (q : FPath) :
    q ∈ fsFiles (fsRemoveSrcDir fs sf) ↔ q ∈ fsFiles fs := by
  obtain ⟨qs, qt, qf⟩ := q
  rw [mem_fsRemoveSrcDir]
  constructor
  · exact fun hq => hq.1
  · intro hq
    refine ⟨hq, ?_⟩
    rintro rfl
    exact fsListSrc_nil fs qs h qt qf hq

/-- C9.  During finalisation cleanup (where the consumed archive file
exists, having just been located by `find_cbz_file`),
`delete_alt_source_files` deletes exactly the consumed file — every
other file is preserved — and any folder that still contains another
file afterwards (in particular a folder holding another chapter of the
same title) still exists: title and provider folders are removed only
when empty. -/
theorem c9_delete_only_consumed_file :
    ∀ (fs : FS) (sf mt : String) (p : FPath),
      fsFileExists fs p = true →
      (∀ q : FPath,
        q ∈ fsFiles (delete_alt_source_files fs sf mt (some p)) ↔
          q ∈ fsFiles fs ∧ q ≠ p) ∧
      (∀ s t f : String, ((s, t, f) : FPath) ∈ fsFiles fs → (s, t, f) ≠ p →
        fsDirExists (delete_alt_source_files fs sf mt (some p)) s t = true ∧
        fsSrcDirExists (delete_alt_source_files fs sf mt (some p)) s = true) := by
  intro fs sf mt p hex
  have main : ∀ q : FPath,
      q ∈ fsFiles (delete_alt_source_files fs sf mt (some p)) ↔
        q ∈ fsFiles fs ∧ q ≠ p := by
    intro q
    rw [delete_alt_source_files]
    simp only [hex, if_true]
    by_cases h2 : fsDirExists (fsRemoveFile fs p) sf mt = true ∧
        (fsListTitle (fsRemoveFile fs p) sf mt).isEmpty = true
    · rw [if_pos h2]
      have hemp : fsListTitle (fsRemoveFile fs p) sf mt = [] :=
        List.isEmpty_iff.mp h2.2
      by_cases h3 : fsSrcDirExists
            (fsRemoveTitleDir (fsRemoveFile fs p) sf mt) sf = true ∧
          (fsListSrc (fsRemoveTitleDir (fsRemoveFile fs p) sf mt) sf).isEmpty
            = true
      · rw [if_pos h3]
        rw [mem_removeSrcDir_empty _ _ (List.isEmpty_iff.mp h3.2),
          mem_removeTitleDir_empty _ _ _ hemp, mem_fsRemoveFile']
      · rw [if_neg h3, mem_removeTitleDir_empty _ _ _ hemp,
          mem_fsRemoveFile']
    · rw [if_neg h2]
      by_cases h3 : fsSrcDirExists (fsRemoveFile fs p) sf = true ∧
          (fsListSrc (fsRemoveFile fs p) sf).isEmpty = true
      · rw [if_pos h3,
          mem_removeSrcDir_empty _ _ (List.isEmpty_iff.mp h3.2),
          mem_fsRemoveFile']
      · rw [if_neg h3, mem_fsRemoveFile']
  refine ⟨main, ?_⟩
  intro s t f hmem hne
  have h1 : ((s, t, f) : FPath) ∈
      fsFiles (delete_alt_source_files fs sf mt (some p)) :=
    (main (s, t, f)).mpr ⟨hmem, hne⟩
  exact ⟨mem_fsFiles_dirExists _ _ _ _ h1, mem_fsFiles_srcDirExists _ _ _ _ h1⟩


/-- Witness for C9 at a concrete input: deleting `a.cbz` preserves
`b.cbz`'s folders. -/
theorem c9_witness :
    fsDirExists
      (delete_alt_source_files fsPair ("S") ("T") (some ("S", "T", "a.cbz")))
      ("S") ("T") = true ∧
    fsSrcDirExists
      (delete_alt_source_files fsPair ("S") ("T") (some ("S", "T", "a.cbz")))
      ("S") = true :=
  (c9_delete_only_consumed_file fsPair ("S") ("T") ("S", "T", "a.cbz")
    (by decide)).2 ("S") ("T") ("b.cbz") (by decide) (by decide)


theorem alistInsert_length {κ β : Type} [DecidableEq κ]
    (l : List (κ × β)) (k : κ) (v : β) :
    (alistInsert l k v).length ≤ l.length + 1 := by
  rw [alistInsert]
  split
  · rw [List.length_map]; exact Nat.le_succ _
  · rw [List.length_append]; exact le_refl _

theorem alistLookup_erase_self {κ β : Type} [DecidableEq κ]
    (l : List (κ × β)) (k : κ) :
    alistLookup (alistErase l k) k = none := by
  rw [alistLookup, Option.map_eq_none', List.find?_eq_none]
  intro e he
  rw [alistErase, List.mem_filter] at he
  simp only [decide_eq_true_eq] at he ⊢
  exact he.2

theorem alistLookup_erase_ne {κ β : Type} [DecidableEq κ]
    (l : List (κ × β)) (k k' : κ) (h : k' ≠ k) :
    alistLookup (alistErase l k) k' = alistLookup l k' := by
  rw [alistLookup, alistLookup, alistErase]
  induction l with
  | nil => rfl
  | cons e rest ih =>
    rw [List.filter_cons]
    by_cases he : e.1 = k'
    · have hek : ¬(e.1 = k) := fun hc => h (he ▸ hc ▸ rfl)
      rw [if_pos (by simpa using hek)]
      rw [List.find?_cons_of_pos _ (by simpa using he),
        List.find?_cons_of_pos _ (by simpa using he)]
    · by_cases hk : e.1 = k
      · rw [if_neg (by simpa using hk), ih,
          List.find?_cons_of_neg _ (by simpa using he)]
      · rw [if_pos (by simpa using hk),
          List.find?_cons_of_neg _ (by simpa using he),
          List.find?_cons_of_neg _ (by simpa using he)]
        exact ih

theorem alistLookup_insert_self {κ β : Type} [DecidableEq κ]
    (l : List (κ × β)) (k : κ) (v : β) :
    alistLookup (alistInsert l k v) k = some v := by
  rw [alistInsert]
  split
  case isTrue h =>
    rw [alistLookup]
    induction l with
    | nil => simp at h
    | cons x rest ih =>
      by_cases hx : x.1 = k
      · rw [List.map_cons, if_pos hx,
          List.find?_cons_of_pos _ (by simp)]
        rfl
      · rw [List.find?_cons_of_neg _ (by simpa using hx)] at h
        rw [List.map_cons, if_neg hx,
          List.find?_cons_of_neg _ (by simpa using hx)]
        exact ih h
  case isFalse h =>
    rw [alistLookup, List.find?_append,
      Option.not_isSome_iff_eq_none.mp h]
    rw [Option.none_or, List.find?_cons_of_pos _ (by simp)]
    rfl

theorem find?_map_replace {κ β : Type} [DecidableEq κ]
    (k k' : κ) (v : β) (h : k' ≠ k) :
    ∀ l : List (κ × β),
      (l.map (fun e => if e.1 = k then (k, v) else e)).find?
          (fun e => decide (e.1 = k')) =
        l.find? (fun e => decide (e.1 = k')) := by
  intro l
  induction l with
  | nil => rfl
  | cons x rest ih =>
    rw [List.map_cons]
    by_cases hx : x.1 = k
    · rw [if_pos hx,
        List.find?_cons_of_neg _ (by simpa using fun hc : k = k' => h hc.symm),
        List.find?_cons_of_neg _ (by simpa using fun hc : x.1 = k' => h (hc ▸ hx)),
        ih]
    · rw [if_neg hx]
      by_cases hx' : x.1 = k'
      · rw [List.find?_cons_of_pos _ (by simpa using hx'),
          List.find?_cons_of_pos _ (by simpa using hx')]
      · rw [List.find?_cons_of_neg _ (by simpa using hx'),
          List.find?_cons_of_neg _ (by simpa using hx'), ih]

theorem alistLookup_insert_ne {κ β : Type} [DecidableEq κ]
    (l : List (κ × β)) (k k' : κ) (v : β) (h : k' ≠ k) :
    alistLookup (alistInsert l k v) k' = alistLookup l k' := by
  rw [alistInsert]
  split
  · rw [alistLookup, alistLookup, find?_map_replace k k' v h]
  · rw [alistLookup, alistLookup, List.find?_append]
    cases hf : l.find? (fun e => decide (e.1 = k')) with
    | some e => simp
    | none =>
      rw [Option.none_or,
        List.find?_cons_of_neg _ (by simpa using fun hc : k = k' => h hc.symm),
        List.find?_nil]

theorem alistLookup_append_ne {κ β : Type} [DecidableEq κ]
    (l : List (κ × β)) (k k' : κ) (v : β) (h : k' ≠ k) :
    alistLookup (l ++ [(k, v)]) k' = alistLookup l k' := by
  rw [alistLookup, alistLookup, List.find?_append]
  cases hf : l.find? (fun e => decide (e.1 = k')) with
  | some e => simp
  | none =>
    rw [Option.none_or,
      List.find?_cons_of_neg _ (by simpa using fun hc : k = k' => h hc.symm),
      List.find?_nil]

theorem alistLookup_of_erase {κ β : Type} [DecidableEq κ]
    (l : List (κ × β)) (k0 k : κ) (r : β)
    (h : alistLookup (alistErase l k0) k = some r) :
    alistLookup l k = some r := by
  by_cases hk : k = k0
  · rw [hk, alistLookup_erase_self] at h; exact absurd h (by simp)
  · rw [alistLookup_erase_ne l k0 k hk] at h; exact h

theorem mem_addIfAbsent {κ : Type} [DecidableEq κ] (l : List κ) (k k' : κ) :
    k' ∈ addIfAbsent l k ↔ k' ∈ l ∨ k' = k := by
  rw [addIfAbsent]
  split
  case isTrue h =>
    constructor
    · exact fun h2 => Or.inl h2
    · rintro (h2 | rfl)
      · exact h2
      · exact h
  case isFalse h => simp

theorem subset_addIfAbsent {κ : Type} [DecidableEq κ] (l : List κ) (k : κ) :
    l ⊆ addIfAbsent l k := by
  intro x hx
  rw [mem_addIfAbsent]
  exact Or.inl hx


/-- `startFallbackGo` adds at most one entry to the active map. -/
theorem startFallbackGo_active_len (env : Env) (dest : ℕ) (title : String)
    (num : ℚ) (name : String) (fcid : ℕ) (k : Key) :
    ∀ (prio tried : List ℕ) (active : List (ℕ × ActiveInfo)),
      ((startFallbackGo env dest title num name fcid k prio tried
        active).2.2).length ≤ active.length + 1 := by
  intro prio
  induction prio with
  | nil => intro tried active; exact Nat.le_succ _
  | cons s rest ih =>
    intro tried active
    simp only [startFallbackGo]
    repeat' split
    all_goals first
      | exact ih _ _
      | exact alistInsert_length _ _ _

/-- `processItem` adds at most one entry to the active map. -/
theorem processItem_active_len (cfg : Config) (env : Env) (st : LoopState)
    (it : FailedItem) :
    (processItem cfg env st it).active.length ≤ st.active.length + 1 := by
  simp only [processItem, start_fallback_download]
  repeat' split
  all_goals
    exact startFallbackGo_active_len env _ _ _ _ _ _ cfg.priority _ st.active

/-- Folding `processItem` over `n` items adds at most `n` entries. -/
theorem foldl_processItem_active_len (cfg : Config) (env : Env) :
    ∀ (items : List FailedItem) (st : LoopState),
      ((items.foldl (processItem cfg env) st).active.length ≤
        st.active.length + items.length) := by
  intro items
  induction items with
  | nil => intro st; exact le_refl _
  | cons x xs ih =>
    intro st
    rw [List.foldl_cons]
    calc ((xs.foldl (processItem cfg env) (processItem cfg env st x)).active).length
        ≤ (processItem cfg env st x).active.length + xs.length := ih _
      _ ≤ st.active.length + 1 + xs.length :=
          Nat.add_le_add_right (processItem_active_len cfg env st x) _
      _ = st.active.length + (xs.length + 1) := by omega

/-- `check_active_downloads` only removes entries. -/
theorem check_active_downloads_len (queue : ℕ → Option DState) (now : ℤ)
    (active : List (ℕ × ActiveInfo)) :
    (check_active_downloads queue now active).2.length ≤ active.length := by
  simp only [check_active_downloads]
  exact List.length_filter_le _ _

/-- The finalisation fold of phase 1 does not touch the active map or
the processed set. -/
theorem phase1_fold_frame (env : Env) :
    ∀ (completed : List (ℕ × ActiveInfo)) (s : LoopState),
      ((completed.foldl
        (fun s e =>
          if env.finalizeOk e.1 then
            { s with
              pending := addIfAbsent s.pending e.2.failureKey,
              pendingTimes := alistInsert s.pendingTimes e.2.failureKey env.nowFin,
              retry := alistErase s.retry e.2.failureKey }
          else s) s).active = s.active) ∧
      ((completed.foldl
        (fun s e =>
          if env.finalizeOk e.1 then
            { s with
              pending := addIfAbsent s.pending e.2.failureKey,
              pendingTimes := alistInsert s.pendingTimes e.2.failureKey env.nowFin,
              retry := alistErase s.retry e.2.failureKey }
          else s) s).processed = s.processed) := by
  intro completed
  induction completed with
  | nil => intro s; exact ⟨rfl, rfl⟩
  | cons e rest ih =>
    intro s
    rw [List.foldl_cons]
    by_cases h : env.finalizeOk e.1 = true
    · rw [if_pos h]; exact ih _
    · rw [if_neg h]; exact ih _

theorem phase1_active_len (env : Env) (st : LoopState) :
    (phase1 env st).active.length ≤ st.active.length := by
  rw [phase1]
  rw [(phase1_fold_frame env _ _).1]
  exact check_active_downloads_len _ _ _

theorem phase1_processed (env : Env) (st : LoopState) :
    (phase1 env st).processed = st.processed := by
  rw [phase1]
  exact (phase1_fold_frame env _ _).2

/-- Phase 2 does not touch the active map or the retry map. -/
theorem phase2_frame (env : Env) :
    ∀ (keys : List Key) (s : LoopState),
      ((keys.foldl
        (fun s k =>
          if k ∈ env.failedKeysCheck then
            if PENDING_TIMEOUT <
                env.nowPending -
                  ((alistLookup s.pendingTimes k).getD env.nowPending) then
              { s with
                pending := s.pending.filter (fun x => decide (x ≠ k)),
                pendingTimes := alistErase s.pendingTimes k,
                processed := addIfAbsent s.processed k }
            else s
          else
            { s with
              pending := s.pending.filter (fun x => decide (x ≠ k)),
              pendingTimes := alistErase s.pendingTimes k,
              processed := addIfAbsent s.processed k }) s).active = s.active) ∧
      ((keys.foldl
        (fun s k =>
          if k ∈ env.failedKeysCheck then
            if PENDING_TIMEOUT <
                env.nowPending -
                  ((alistLookup s.pendingTimes k).getD env.nowPending) then
              { s with
                pending := s.pending.filter (fun x => decide (x ≠ k)),
                pendingTimes := alistErase s.pendingTimes k,
                processed := addIfAbsent s.processed k }
            else s
          else
            { s with
              pending := s.pending.filter (fun x => decide (x ≠ k)),
              pendingTimes := alistErase s.pendingTimes k,
              processed := addIfAbsent s.processed k }) s).retry = s.retry) := by
  intro keys
  induction keys with
  | nil => intro s; exact ⟨rfl, rfl⟩
  | cons k rest ih =>
    intro s
    rw [List.foldl_cons]
    by_cases h1 : k ∈ env.failedKeysCheck
    · rw [if_pos h1]
      by_cases h2 : PENDING_TIMEOUT <
          env.nowPending - ((alistLookup s.pendingTimes k).getD env.nowPending)
      · rw [if_pos h2]; exact ih _
      · rw [if_neg h2]; exact ih _
    · rw [if_neg h1]; exact ih _

theorem phase2_active (env : Env) (st : LoopState) :
    (phase2 env st).active = st.active := by
  rw [phase2]; exact (phase2_frame env _ _).1

theorem phase2_retry (env : Env) (st : LoopState) :
    (phase2 env st).retry = st.retry := by
  rw [phase2]; exact (phase2_frame env _ _).2

theorem phase4_active (st : LoopState) : (phase4 st).active = st.active := by
  rw [phase4]; split <;> rfl

/-- Phase 3 never pushes the active map above the cap. -/
theorem phase3_active_le_cap (cfg : Config) (env : Env) (st : LoopState)
    (h : st.active.length ≤ cfg.cap) :
    (phase3 cfg env st).active.length ≤ cfg.cap := by
  rw [phase3]
  by_cases hlt : st.active.length < cfg.cap
  · rw [if_pos hlt]
    calc ((selectToProcess cfg env st).foldl (processItem cfg env) st).active.length
        ≤ st.active.length + (selectToProcess cfg env st).length :=
          foldl_processItem_active_len cfg env _ st
      _ ≤ st.active.length + (cfg.cap - st.active.length) := by
          refine Nat.add_le_add_left ?_ _
          rw [selectToProcess]
          exact le_trans (List.length_take_le _ _) (le_refl _)
      _ = cfg.cap := Nat.add_sub_cancel' (le_of_lt hlt)
  · rw [if_neg hlt]; exact h

/-- C2.  Under any sequence of poll cycles from the initial state, the
number of entries in `_active_fallback_downloads` never exceeds
`MAX_CONCURRENT_FALLBACKS`: phase 1 only removes entries, and phase 3
starts at most `MAX_CONCURRENT_FALLBACKS - len(active)` new downloads,
each adding at most one entry. -/
theorem c2_active_downloads_capped (cfg : Config) (envs : List Env) :
    (runCycles cfg envs initState).active.length ≤ cfg.cap := by
  have aux : ∀ (es : List Env) (st : LoopState),
      st.active.length ≤ cfg.cap →
      (runCycles cfg es st).active.length ≤ cfg.cap := by
    intro es
    induction es with
    | nil => intro st h; exact h
    | cons e rest ih =>
      intro st h
      rw [runCycles]
      refine ih _ ?_
      rw [mainCycle, phase4_active]
      refine phase3_active_le_cap cfg e _ ?_
      rw [phase2_active]
      exact le_trans (phase1_active_len e st) h
  exact aux envs initState (Nat.zero_le _)


/-- `processItem` leaves the pending set unchanged. -/
theorem processItem_pending (cfg : Config) (env : Env) (st : LoopState)
    (it : FailedItem) : (processItem cfg env st it).pending = st.pending := by
  simp only [processItem]
  repeat' split
  all_goals rfl

/-- `processItem` does not change the retry record of other keys. -/
theorem processItem_retry_ne (cfg : Config) (env : Env) (st : LoopState)
    (it : FailedItem) (k' : Key) (hne : k' ≠ keyOf it) :
    alistLookup (processItem cfg env st it).retry k' =
      alistLookup st.retry k' := by
  simp only [processItem]
  repeat' split
  all_goals rw [alistLookup_insert_ne _ _ _ _ hne]
  all_goals first
    | rfl
    | exact alistLookup_append_ne st.retry (keyOf it) k' _ hne

theorem rpdisj_phase1 (env : Env) (st : LoopState) (h : RPDisj st) :
    RPDisj (phase1 env st) := by
  rw [phase1]
  have aux : ∀ (completed : List (ℕ × ActiveInfo)) (s : LoopState),
      RPDisj s →
      RPDisj (completed.foldl
        (fun s e =>
          if env.finalizeOk e.1 = true then
            { s with
              pending := addIfAbsent s.pending e.2.failureKey,
              pendingTimes := alistInsert s.pendingTimes e.2.failureKey env.nowFin,
              retry := alistErase s.retry e.2.failureKey }
          else s) s) := by
    intro completed
    induction completed with
    | nil => intro s hs; exact hs
    | cons e rest ih =>
      intro s hs
      rw [List.foldl_cons]
      by_cases hf : env.finalizeOk e.1 = true
      · rw [if_pos hf]
        refine ih _ ?_
        intro k hk hp
        simp only at hk hp
        by_cases hkk : k = e.2.failureKey
        · rw [hkk, alistLookup_erase_self] at hk
          exact absurd hk (by simp)
        · rw [alistLookup_erase_ne _ _ _ hkk] at hk
          rw [mem_addIfAbsent] at hp
          rcases hp with hp | hp
          · exact hs k hk hp
          · exact hkk hp
      · rw [if_neg hf]; exact ih _ hs
  exact aux _ _ (fun k hk hp => h k hk hp)

theorem rpdisj_phase2 (env : Env) (st : LoopState) (h : RPDisj st) :
    RPDisj (phase2 env st) := by
  rw [phase2]
  have aux : ∀ (keys : List Key) (s : LoopState),
      RPDisj s →
      RPDisj (keys.foldl
        (fun s k =>
          if k ∈ env.failedKeysCheck then
            if PENDING_TIMEOUT <
                env.nowPending -
                  ((alistLookup s.pendingTimes k).getD env.nowPending) then
              { s with
                pending := s.pending.filter (fun x => decide (x ≠ k)),
                pendingTimes := alistErase s.pendingTimes k,
                processed := addIfAbsent s.processed k }
            else s
          else
            { s with
              pending := s.pending.filter (fun x => decide (x ≠ k)),
              pendingTimes := alistErase s.pendingTimes k,
              processed := addIfAbsent s.processed k }) s) := by
    intro keys
    induction keys with
    | nil => intro s hs; exact hs
    | cons k0 rest ih =>
      intro s hs
      rw [List.foldl_cons]
      have hstep : ∀ s' : LoopState, RPDisj s' →
          RPDisj { s' with
            pending := s'.pending.filter (fun x => decide (x ≠ k0)),
            pendingTimes := alistErase s'.pendingTimes k0,
            processed := addIfAbsent s'.processed k0 } := by
        intro s' hs' k hk hp
        simp only [List.mem_filter] at hp
        exact hs' k hk hp.1
      by_cases h1 : k0 ∈ env.failedKeysCheck
      · rw [if_pos h1]
        by_cases h2 : PENDING_TIMEOUT <
            env.nowPending - ((alistLookup s.pendingTimes k0).getD env.nowPending)
        · rw [if_pos h2]; exact ih _ (hstep s hs)
        · rw [if_neg h2]; exact ih _ hs
      · rw [if_neg h1]; exact ih _ (hstep s hs)
  exact aux _ _ h

theorem rpdisj_phase3 (cfg : Config) (env : Env) (st : LoopState)
    (h : RPDisj st) : RPDisj (phase3 cfg env st) := by
  rw [phase3]
  by_cases hlt : st.active.length < cfg.cap
  · rw [if_pos hlt]
    have hsel : ∀ it ∈ selectToProcess cfg env st, keyOf it ∉ st.pending := by
      intro it hit
      rw [selectToProcess] at hit
      have := List.mem_of_mem_take hit
      rw [List.mem_filter] at this
      have h2 := this.2
      simp only [Bool.and_eq_true, decide_eq_true_eq] at h2
      exact h2.2
    have aux : ∀ (items : List FailedItem) (s : LoopState),
        RPDisj s → s.pending = st.pending →
        (∀ it ∈ items, keyOf it ∉ st.pending) →
        RPDisj (items.foldl (processItem cfg env) s) := by
      intro items
      induction items with
      | nil => intro s hs _ _; exact hs
      | cons x xs ih =>
        intro s hs hpend hall
        rw [List.foldl_cons]
        refine ih _ ?_ ?_ ?_
        · intro k hk hp
          rw [processItem_pending, hpend] at hp
          by_cases hkk : k = keyOf x
          · exact hall x (List.mem_cons_self x xs) (hkk ▸ hp)
          · rw [processItem_retry_ne cfg env s x k hkk] at hk
            exact hs k hk (by rw [hpend]; exact hp)
        · rw [processItem_pending]; exact hpend
        · exact fun it hit => hall it (List.mem_cons_of_mem x hit)
    exact aux _ st h rfl hsel
  · rw [if_neg hlt]; exact h

theorem rpdisj_phase4 (st : LoopState) (h : RPDisj st) : RPDisj (phase4 st) := by
  rw [phase4]
  split
  · intro k hk
    rw [alistLookup] at hk
    simp at hk
  · exact h

/-- C1 (amended).  A FailureKey is never simultaneously in the retry
map (`tried_sources_per_failure`) and in `pending_detection`: a
successful finalisation deletes the retry record when it adds the key
to pending, and keys in pending are excluded from new retry starts.
(The other exclusivities claimed — a key owning at most one in-flight
download, and never being in the retry map while owning a download — do
not hold; see the counterexample.) -/
theorem c1_retry_pending_disjoint (cfg : Config) (envs : List Env) (k : Key) :
    ((alistLookup (runCycles cfg envs initState).retry k).isSome &&
      decide (k ∈ (runCycles cfg envs initState).pending)) = false := by
  have hd : RPDisj (runCycles cfg envs initState) := by
    have aux : ∀ (es : List Env) (st : LoopState),
        RPDisj st → RPDisj (runCycles cfg es st) := by
      intro es
      induction es with
      | nil => intro st h; exact h
      | cons e rest ih =>
        intro st h
        rw [runCycles]
        exact ih _ (rpdisj_phase4 _
          (rpdisj_phase3 cfg e _ (rpdisj_phase2 e _ (rpdisj_phase1 e _ h))))
    refine aux envs initState ?_
    intro k hk
    rw [alistLookup] at hk
    simp [initState] at hk
  by_cases hs : (alistLookup (runCycles cfg envs initState).retry k).isSome = true
  · rw [hs, Bool.true_and, decide_eq_false_iff_not]
    exact hd k hs
  · rw [Bool.not_eq_true] at hs
    rw [hs, Bool.false_and]

set_option maxRecDepth 100000 in
/-- Counterexample to C1.  After two poll cycles in which the same
failure is reported while its first fallback download is still in
flight, the key `(5, 6)` owns TWO in-flight active downloads (from
providers 1 and 2), and simultaneously has a retry record — the claimed
mutual exclusion between RetryRecord-active and ActiveDownload
ownership, and the per-key bound of one in-flight download, are both
violated. -/
theorem c1_counterexample :
    ((runCycles cfgA [envA1, envA2] initState).active.filter
      (fun e => decide (e.2.failureKey = (5, 6)))).length = 2 ∧
    (alistLookup (runCycles cfgA [envA1, envA2] initState).retry
      (5, 6)).isSome = true := by
  constructor
  · decide
  · decide


/-- Single-entry append lookup. -/
theorem alistLookup_append_self {κ β : Type} [DecidableEq κ]
    (l : List (κ × β)) (k : κ) (v : β)
    (h : (l.find? (fun e => decide (e.1 = k))).isSome = false) :
    alistLookup (l ++ [(k, v)]) k = some v := by
  have hnone : l.find? (fun e => decide (e.1 = k)) = none :=
    Option.not_isSome_iff_eq_none.mp (by rw [h]; exact Bool.false_ne_true)
  rw [alistLookup, List.find?_append, hnone, Option.none_or,
    List.find?_cons_of_pos _ (by simp)]
  rfl

/-- Specification of the provider loop of `start_fallback_download`:
the final tried list extends the initial one by pairwise-distinct
sources taken from the remaining priority list, none equal to the
destination, none already tried; a returned (started) source also comes
from the priority list, differs from the destination, and is not in the
final tried list. -/
theorem startFallbackGo_spec (env : Env) (dest : ℕ) (title : String)
    (num : ℚ) (name : String) (fcid : ℕ) (k : Key) :
    ∀ (prio tried : List ℕ) (active : List (ℕ × ActiveInfo)),
      ∃ new : List ℕ,
        (startFallbackGo env dest title num name fcid k prio tried
          active).2.1 = tried ++ new ∧
        new.Nodup ∧
        (∀ x ∈ new, x ∈ prio ∧ x ≠ dest ∧ x ∉ tried) ∧
        (∀ s, (startFallbackGo env dest title num name fcid k prio tried
          active).1 = some s → s ∈ prio ∧ s ≠ dest ∧ s ∉ tried ++ new) := by
  intro prio
  induction prio with
  | nil =>
    intro tried active
    refine ⟨[], by simp [startFallbackGo], List.nodup_nil, by simp, ?_⟩
    intro s hs
    rw [startFallbackGo] at hs
    exact absurd hs (by simp)
  | cons s0 rest ih =>
    intro tried active
    have lift : ∀ (res : Option ℕ × List ℕ × List (ℕ × ActiveInfo)),
        (∃ new : List ℕ,
          res.2.1 = tried ++ new ∧ new.Nodup ∧
          (∀ x ∈ new, x ∈ rest ∧ x ≠ dest ∧ x ∉ tried) ∧
          (∀ s, res.1 = some s → s ∈ rest ∧ s ≠ dest ∧ s ∉ tried ++ new)) →
        (∃ new : List ℕ,
          res.2.1 = tried ++ new ∧ new.Nodup ∧
          (∀ x ∈ new, x ∈ s0 :: rest ∧ x ≠ dest ∧ x ∉ tried) ∧
          (∀ s, res.1 = some s → s ∈ s0 :: rest ∧ s ≠ dest ∧
            s ∉ tried ++ new)) := by
      rintro res ⟨new, h1, h2, h3, h4⟩
      exact ⟨new, h1, h2,
        fun x hx => ⟨List.mem_cons_of_mem _ (h3 x hx).1, (h3 x hx).2.1,
          (h3 x hx).2.2⟩,
        fun s hs => ⟨List.mem_cons_of_mem _ (h4 s hs).1, (h4 s hs).2.1,
          (h4 s hs).2.2⟩⟩
    simp only [startFallbackGo]
    split
    · exact lift _ (ih tried active)
    next hdest =>
    split
    · exact lift _ (ih tried active)
    next htried =>
    split
    · exact lift _ (ih tried active)
    next hres =>
    split
    · exact lift _ (ih tried active)
    next m hm =>
    split
    · exact lift _ (ih tried active)
    next hchs =>
    split
    · exact lift _ (ih tried active)
    next tc htc =>
    split
    next hok =>
      refine ⟨[], by simp, List.nodup_nil, by simp, ?_⟩
      intro s hs
      simp only [Option.some.injEq] at hs
      subst hs
      refine ⟨List.mem_cons_self _ _, hdest, ?_⟩
      rw [List.append_nil]
      exact htried
    next hok =>
      obtain ⟨new, h1, h2, h3, h4⟩ := ih (tried ++ [s0]) active
      refine ⟨s0 :: new, ?_, ?_, ?_, ?_⟩
      · rw [h1, List.append_assoc, List.singleton_append]
      · refine List.nodup_cons.mpr ⟨?_, h2⟩
        intro hmem
        exact (h3 s0 hmem).2.2 (List.mem_append_right _ (List.mem_singleton.mpr rfl))
      · intro x hx
        rcases List.mem_cons.mp hx with rfl | hx
        · exact ⟨List.mem_cons_self _ _, hdest, htried⟩
        · exact ⟨List.mem_cons_of_mem _ (h3 x hx).1, (h3 x hx).2.1,
            fun hm => (h3 x hx).2.2 (List.mem_append_left _ hm)⟩
      · intro s hs
        obtain ⟨hm1, hm2, hm3⟩ := h4 s hs
        refine ⟨List.mem_cons_of_mem _ hm1, hm2, ?_⟩
        intro hm
        refine hm3 ?_
        rw [List.append_assoc, List.singleton_append]
        exact hm

/-- The value stored for the processed item's own key by
`processItem`, in terms of `start_fallback_download`'s result. -/
theorem processItem_retry_self (cfg : Config) (env : Env) (st : LoopState)
    (it : FailedItem) :
    ∃ rec0 : RetryRec,
      (alistLookup st.retry (keyOf it) = some rec0 ∨
        (alistLookup st.retry (keyOf it) = none ∧
          rec0 = ⟨[], it.sourceId, 0⟩)) ∧
      alistLookup (processItem cfg env st it).retry (keyOf it) =
        some (
          match (start_fallback_download cfg env
              { it with sourceId := rec0.originalSource } rec0.sources
              (keyOf it) st.active).1 with
          | some sid =>
            { rec0 with sources := (start_fallback_download cfg env
                { it with sourceId := rec0.originalSource } rec0.sources
                (keyOf it) st.active).2.1 ++ [sid] }
          | none =>
            if cfg.priority.length - 1 ≤
                (start_fallback_download cfg env
                  { it with sourceId := rec0.originalSource } rec0.sources
                  (keyOf it) st.active).2.1.length then
              if cfg.maxLoops ≤ rec0.loops + 1 then
                { rec0 with
                  sources := (start_fallback_download cfg env
                    { it with sourceId := rec0.originalSource } rec0.sources
                    (keyOf it) st.active).2.1,
                  loops := rec0.loops + 1 }
              else { rec0 with sources := [], loops := rec0.loops + 1 }
            else
              { rec0 with sources := (start_fallback_download cfg env
                  { it with sourceId := rec0.originalSource } rec0.sources
                  (keyOf it) st.active).2.1 }) := by
  by_cases hsome : (alistLookup st.retry (keyOf it)).isSome = true
  · obtain ⟨r0, hr0⟩ := Option.isSome_iff_exists.mp hsome
    refine ⟨r0, Or.inl hr0, ?_⟩
    simp only [processItem, hr0, Option.isSome_some, if_true, Option.getD_some]
    split
    · rw [alistLookup_insert_self]
    · split
      · split
        · rw [alistLookup_insert_self]
        · rw [alistLookup_insert_self]
      · rw [alistLookup_insert_self]
  · refine ⟨⟨[], it.sourceId, 0⟩, Or.inr ⟨Option.not_isSome_iff_eq_none.mp
      (by rw [Bool.not_eq_true] at hsome; rw [hsome]; exact Bool.false_ne_true),
      rfl⟩, ?_⟩
    have happ : alistLookup (st.retry ++ [(keyOf it,
        (⟨[], it.sourceId, 0⟩ : RetryRec))]) (keyOf it) =
        some ⟨[], it.sourceId, 0⟩ := by
      refine alistLookup_append_self _ _ _ ?_
      rw [← Bool.not_eq_true]
      intro hc
      refine hsome ?_
      rw [alistLookup, Option.isSome_map']
      exact hc
    simp only [processItem, eq_false hsome, if_false, happ, Option.getD_some]
    split
    · rw [alistLookup_insert_self]
    · split
      · split
        · rw [alistLookup_insert_self]
        · rw [alistLookup_insert_self]
      · rw [alistLookup_insert_self]


/-- `processItem` preserves the per-record source-list invariant:
no duplicates, all sources from the priority list, and every source
satisfying `Q` for its key (where `Q` is implied by "differs from the
destination resolved for the attempt"). -/
theorem processItem_retry_good (cfg : Config) (env : Env) (st : LoopState)
    (it : FailedItem) (Q : Key → ℕ → Prop)
    (hQ : ∀ (src x : ℕ),
      x ≠ resolve_destination_source_id env.fs env.catalog it.mangaTitle src →
      Q (keyOf it) x)
    (hinv : ∀ (k : Key) (r : RetryRec), alistLookup st.retry k = some r →
      r.sources.Nodup ∧ ∀ x ∈ r.sources, x ∈ cfg.priority ∧ Q k x) :
    ∀ (k : Key) (r : RetryRec),
      alistLookup (processItem cfg env st it).retry k = some r →
      r.sources.Nodup ∧ ∀ x ∈ r.sources, x ∈ cfg.priority ∧ Q k x := by
  intro k r hk
  by_cases hkk : k = keyOf it
  · subst hkk
    obtain ⟨rec0, hrec0, hstore⟩ := processItem_retry_self cfg env st it
    rw [hstore, Option.some.injEq] at hk
    have hrec : rec0.sources.Nodup ∧
        ∀ x ∈ rec0.sources, x ∈ cfg.priority ∧ Q (keyOf it) x := by
      rcases hrec0 with h | ⟨-, rfl⟩
      · exact hinv (keyOf it) rec0 h
      · exact ⟨List.nodup_nil, by simp⟩
    have hdest := startFallbackGo_spec env
      (resolve_destination_source_id env.fs env.catalog it.mangaTitle
        rec0.originalSource)
      it.mangaTitle it.chapterNumber it.chapterName it.chapterId (keyOf it)
      cfg.priority rec0.sources st.active
    obtain ⟨new, h1, h2, h3, h4⟩ := hdest
    have hres : start_fallback_download cfg env
        { it with sourceId := rec0.originalSource } rec0.sources (keyOf it) st.active =
        startFallbackGo env
          (resolve_destination_source_id env.fs env.catalog it.mangaTitle
            rec0.originalSource)
          it.mangaTitle it.chapterNumber it.chapterName it.chapterId (keyOf it)
          cfg.priority rec0.sources st.active := rfl
    have hQ' := hQ rec0.originalSource
    have hgood : ((startFallbackGo env
        (resolve_destination_source_id env.fs env.catalog it.mangaTitle
          rec0.originalSource)
        it.mangaTitle it.chapterNumber it.chapterName it.chapterId (keyOf it)
        cfg.priority rec0.sources st.active).2.1).Nodup ∧
        ∀ x ∈ (startFallbackGo env
          (resolve_destination_source_id env.fs env.catalog it.mangaTitle
            rec0.originalSource)
          it.mangaTitle it.chapterNumber it.chapterName it.chapterId (keyOf it)
          cfg.priority rec0.sources st.active).2.1,
          x ∈ cfg.priority ∧ Q (keyOf it) x := by
      rw [h1]
      constructor
      · rw [List.nodup_append]
        exact ⟨hrec.1, h2, fun a ha hb => (h3 a hb).2.2 ha⟩
      · intro x hx
        rcases List.mem_append.mp hx with hx | hx
        · exact hrec.2 x hx
        · exact ⟨(h3 x hx).1, hQ' x (h3 x hx).2.1⟩
    rw [hres] at hk
    rcases hcase : (startFallbackGo env
        (resolve_destination_source_id env.fs env.catalog it.mangaTitle
          rec0.originalSource)
        it.mangaTitle it.chapterNumber it.chapterName it.chapterId (keyOf it)
        cfg.priority rec0.sources st.active).1 with _ | sid
    · rw [hcase] at hk
      simp only at hk
      split at hk
      · split at hk
        · subst hk
          exact ⟨hgood.1, hgood.2⟩
        · subst hk
          exact ⟨List.nodup_nil, by simp⟩
      · subst hk
        exact ⟨hgood.1, hgood.2⟩
    · rw [hcase] at hk
      simp only at hk
      subst hk
      have hsid := h4 sid hcase
      refine ⟨?_, ?_⟩
      · rw [List.nodup_append]
        refine ⟨hgood.1, List.nodup_singleton _, ?_⟩
        intro a ha hb
        rw [List.mem_singleton] at hb
        subst hb
        exact hsid.2.2 (h1 ▸ ha)
      · intro x hx
        rcases List.mem_append.mp hx with hx | hx
        · exact hgood.2 x hx
        · rw [List.mem_singleton] at hx
          subst hx
          exact ⟨hsid.1, hQ' x hsid.2.1⟩
  · rw [processItem_retry_ne cfg env st it k hkk] at hk
    exact hinv k r hk

/-- The source-list invariant is preserved by a full poll cycle. -/
theorem mainCycle_retry_good (cfg : Config) (env : Env) (Q : Key → ℕ → Prop)
    (hQ : ∀ it ∈ env.failedItems, ∀ (src x : ℕ),
      x ≠ resolve_destination_source_id env.fs env.catalog it.mangaTitle src →
      Q (keyOf it) x)
    (st : LoopState)
    (hinv : ∀ (k : Key) (r : RetryRec), alistLookup st.retry k = some r →
      r.sources.Nodup ∧ ∀ x ∈ r.sources, x ∈ cfg.priority ∧ Q k x) :
    ∀ (k : Key) (r : RetryRec),
      alistLookup (mainCycle cfg env st).retry k = some r →
      r.sources.Nodup ∧ ∀ x ∈ r.sources, x ∈ cfg.priority ∧ Q k x := by
  have hph1 : ∀ (s : LoopState),
      (∀ (k : Key) (r : RetryRec), alistLookup s.retry k = some r →
        r.sources.Nodup ∧ ∀ x ∈ r.sources, x ∈ cfg.priority ∧ Q k x) →
      ∀ (k : Key) (r : RetryRec), alistLookup (phase1 env s).retry k = some r →
        r.sources.Nodup ∧ ∀ x ∈ r.sources, x ∈ cfg.priority ∧ Q k x := by
    intro s hs
    rw [phase1]
    have aux : ∀ (completed : List (ℕ × ActiveInfo)) (s' : LoopState),
        (∀ (k : Key) (r : RetryRec), alistLookup s'.retry k = some r →
          r.sources.Nodup ∧ ∀ x ∈ r.sources, x ∈ cfg.priority ∧ Q k x) →
        ∀ (k : Key) (r : RetryRec),
          alistLookup (completed.foldl
            (fun s e =>
              if env.finalizeOk e.1 = true then
                { s with
                  pending := addIfAbsent s.pending e.2.failureKey,
                  pendingTimes := alistInsert s.pendingTimes e.2.failureKey
                    env.nowFin,
                  retry := alistErase s.retry e.2.failureKey }
              else s) s').retry k = some r →
          r.sources.Nodup ∧ ∀ x ∈ r.sources, x ∈ cfg.priority ∧ Q k x := by
      intro completed
      induction completed with
      | nil => intro s' hs'; exact hs'
      | cons e rest ih =>
        intro s' hs'
        rw [List.foldl_cons]
        by_cases hf : env.finalizeOk e.1 = true
        · rw [if_pos hf]
          refine ih _ ?_
          intro k r hk
          simp only at hk
          exact hs' k r (alistLookup_of_erase _ _ _ _ hk)
        · rw [if_neg hf]; exact ih _ hs'
    exact aux _ _ hs
  have hph2 : ∀ (s : LoopState),
      (∀ (k : Key) (r : RetryRec), alistLookup s.retry k = some r →
        r.sources.Nodup ∧ ∀ x ∈ r.sources, x ∈ cfg.priority ∧ Q k x) →
      ∀ (k : Key) (r : RetryRec), alistLookup (phase2 env s).retry k = some r →
        r.sources.Nodup ∧ ∀ x ∈ r.sources, x ∈ cfg.priority ∧ Q k x := by
    intro s hs k r hk
    rw [phase2_retry] at hk
    exact hs k r hk
  have hph3 : ∀ (s : LoopState),
      (∀ (k : Key) (r : RetryRec), alistLookup s.retry k = some r →
        r.sources.Nodup ∧ ∀ x ∈ r.sources, x ∈ cfg.priority ∧ Q k x) →
      ∀ (k : Key) (r : RetryRec),
        alistLookup (phase3 cfg env s).retry k = some r →
        r.sources.Nodup ∧ ∀ x ∈ r.sources, x ∈ cfg.priority ∧ Q k x := by
    intro s hs
    rw [phase3]
    by_cases hlt : s.active.length < cfg.cap
    · rw [if_pos hlt]
      have hsel : ∀ it ∈ selectToProcess cfg env s, it ∈ env.failedItems := by
        intro it hit
        rw [selectToProcess] at hit
        exact List.mem_of_mem_filter (List.mem_of_mem_take hit)
      have aux : ∀ (items : List FailedItem) (s' : LoopState),
          (∀ it ∈ items, it ∈ env.failedItems) →
          (∀ (k : Key) (r : RetryRec), alistLookup s'.retry k = some r →
            r.sources.Nodup ∧ ∀ x ∈ r.sources, x ∈ cfg.priority ∧ Q k x) →
          ∀ (k : Key) (r : RetryRec),
            alistLookup ((items.foldl (processItem cfg env) s')).retry k =
              some r →
            r.sources.Nodup ∧ ∀ x ∈ r.sources, x ∈ cfg.priority ∧ Q k x := by
        intro items
        induction items with
        | nil => intro s' _ hs'; exact hs'
        | cons x xs ih =>
          intro s' hall hs'
          rw [List.foldl_cons]
          refine ih _ (fun it hit => hall it (List.mem_cons_of_mem x hit)) ?_
          exact processItem_retry_good cfg env s' x Q
            (hQ x (hall x (List.mem_cons_self x xs))) hs'
      exact aux _ s hsel hs
    · rw [if_neg hlt]; exact hs
  have hph4 : ∀ (s : LoopState),
      (∀ (k : Key) (r : RetryRec), alistLookup s.retry k = some r →
        r.sources.Nodup ∧ ∀ x ∈ r.sources, x ∈ cfg.priority ∧ Q k x) →
      ∀ (k : Key) (r : RetryRec), alistLookup (phase4 s).retry k = some r →
        r.sources.Nodup ∧ ∀ x ∈ r.sources, x ∈ cfg.priority ∧ Q k x := by
    intro s hs k r hk
    rw [phase4] at hk
    split at hk
    · rw [alistLookup] at hk
      simp at hk
    · exact hs k r hk
  intro k r hk
  exact hph4 _ (hph3 _ (hph2 _ (hph1 _ hinv))) k r hk


/-- Counting helper: a duplicate-free list included in `L` is no longer
than `L`. -/
theorem nodup_subset_length_le (l L : List ℕ) (hnd : l.Nodup)
    (hsub : l ⊆ L) : l.length ≤ L.length := by
  calc l.length = l.toFinset.card := (List.toFinset_card_of_nodup hnd).symm
    _ ≤ L.toFinset.card := Finset.card_le_card
        (fun a ha => List.mem_toFinset.mpr (hsub (List.mem_toFinset.mp ha)))
    _ ≤ L.length := L.toFinset_card_le

/-- Counting helper: a duplicate-free list included in `L` avoiding a
member `d` of `L` has length at most `L.length - 1`. -/
theorem nodup_subset_avoid_length_le (l L : List ℕ) (d : ℕ) (hnd : l.Nodup)
    (hsub : ∀ x ∈ l, x ∈ L ∧ x ≠ d) (hdL : d ∈ L) :
    l.length ≤ L.length - 1 := by
  have h1 : l.toFinset ⊆ L.toFinset.erase d := by
    intro a ha
    have hm := hsub a (List.mem_toFinset.mp ha)
    exact Finset.mem_erase.mpr ⟨hm.2, List.mem_toFinset.mpr hm.1⟩
  calc l.length = l.toFinset.card := (List.toFinset_card_of_nodup hnd).symm
    _ ≤ (L.toFinset.erase d).card := Finset.card_le_card h1
    _ = L.toFinset.card - 1 :=
        Finset.card_erase_of_mem (List.mem_toFinset.mpr hdL)
    _ ≤ L.length - 1 := Nat.sub_le_sub_right L.toFinset_card_le 1

/-- C8 (amended).  Along any run: every RetryRecord's tried-source list
is duplicate-free and a subset of the priority list, so its size never
exceeds the priority-list length; each tried source differed from the
destination resolved for the attempt that recorded it, so when the
destination resolution for a key is stable and lands inside the
priority list, the tried set avoids it and its size never exceeds
(priority-list length − 1).  (Without those provisos the − 1 bound
fails — see the counterexample, where the destination is outside the
priority list.) -/
theorem c8_tried_sources_bounds :
    (∀ (cfg : Config) (envs : List Env) (k : Key) (r : RetryRec),
      alistLookup (runCycles cfg envs initState).retry k = some r →
        r.sources.Nodup ∧ r.sources ⊆ cfg.priority ∧
        r.sources.length ≤ cfg.priority.length) ∧
    (∀ (cfg : Config) (envs : List Env) (D : Key → ℕ),
      (∀ e ∈ envs, ∀ it ∈ e.failedItems, ∀ src : ℕ,
        resolve_destination_source_id e.fs e.catalog it.mangaTitle src =
          D (keyOf it)) →
      ∀ (k : Key) (r : RetryRec),
        alistLookup (runCycles cfg envs initState).retry k = some r →
          (∀ x ∈ r.sources, x ≠ D k) ∧
          (D k ∈ cfg.priority →
            r.sources.length ≤ cfg.priority.length - 1)) := by
  have base : ∀ (Q : Key → ℕ → Prop) (cfg : Config) (k : Key) (r : RetryRec),
      alistLookup initState.retry k = some r →
      r.sources.Nodup ∧ ∀ x ∈ r.sources, x ∈ cfg.priority ∧ Q k x := by
    intro Q cfg k r hk
    rw [alistLookup] at hk
    simp [initState] at hk
  have run : ∀ (Q : Key → ℕ → Prop) (cfg : Config) (envs : List Env),
      (∀ e ∈ envs, ∀ it ∈ e.failedItems, ∀ (src x : ℕ),
        x ≠ resolve_destination_source_id e.fs e.catalog it.mangaTitle src →
        Q (keyOf it) x) →
      ∀ (st : LoopState),
      (∀ (k : Key) (r : RetryRec), alistLookup st.retry k = some r →
        r.sources.Nodup ∧ ∀ x ∈ r.sources, x ∈ cfg.priority ∧ Q k x) →
      ∀ (k : Key) (r : RetryRec),
        alistLookup (runCycles cfg envs st).retry k = some r →
        r.sources.Nodup ∧ ∀ x ∈ r.sources, x ∈ cfg.priority ∧ Q k x := by
    intro Q cfg envs
    induction envs with
    | nil => intro _ st hst; exact hst
    | cons e rest ih =>
      intro hQ st hst
      rw [runCycles]
      refine ih (fun e' he' => hQ e' (List.mem_cons_of_mem e he')) _ ?_
      exact mainCycle_retry_good cfg e Q
        (fun it hit => hQ e (List.mem_cons_self e rest) it hit) st hst
  constructor
  · intro cfg envs k r hk
    have h := run (fun _ _ => True) cfg envs (by intro _ _ _ _ _ _ _; trivial)
      initState (base _ cfg) k r hk
    exact ⟨h.1, fun x hx => (h.2 x hx).1,
      nodup_subset_length_le _ _ h.1 (fun x hx => (h.2 x hx).1)⟩
  · intro cfg envs D hD k r hk
    have h := run (fun k x => x ≠ D k) cfg envs
      (by
        intro e he it hit src x hx
        rw [hD e he it hit src] at hx
        exact hx)
      initState (base _ cfg) k r hk
    refine ⟨fun x hx => (h.2 x hx).2, ?_⟩
    intro hdk
    exact nodup_subset_avoid_length_le _ _ (D k) h.1
      (fun x hx => ⟨(h.2 x hx).1, (h.2 x hx).2⟩) hdk

set_option maxRecDepth 100000 in
/-- Counterexample to C8.  With priority list `[1, 2]` and a failure
whose destination provider `0` is outside the priority list, two
successful starts in consecutive cycles leave the retry record with
tried set `[1, 2]` of size 2, strictly more than
`len(priority) - 1 = 1`, while the loop counter is still 0. -/
theorem c8_counterexample :
    alistLookup (runCycles cfgB [envB1, envB2] initState).retry (5, 6) =
      some ⟨[1, 2], 0, 0⟩ ∧
    cfgB.priority.length - 1 < 2 := by
  constructor
  · decide
  · decide

set_option maxRecDepth 100000 in
/-- Witness for C8 (amended) at a concrete input: a cycle whose
destination resolution is stably provider 1 (folders on disk for the
title) leaves the record for key `(3, 4)` with an empty tried set. -/
theorem c8_witness :
    (∀ x ∈ (RetryRec.mk [] 7 0).sources, x ≠ 1) ∧
    (RetryRec.mk [] 7 0).sources.length ≤ cfgW.priority.length - 1 := by
  have h := c8_tried_sources_bounds.2 cfgW [envW] (fun _ => 1)
    (by
      intro e he it hit src
      rw [List.mem_singleton] at he
      subst he
      have hfi : envW.failedItems = [itemW] := rfl
      rw [hfi, List.mem_singleton] at hit
      subst hit
      rfl)
    (3, 4) ⟨[], 7, 0⟩ (by decide)
  exact ⟨h.1, h.2 (by decide)⟩


/-- Replacing the value of a key that sits only in the appended
singleton rewrites that singleton in place. -/
theorem alistInsert_append_fresh {κ β : Type} [DecidableEq κ]
    (l : List (κ × β)) (k : κ) (v0 v : β)
    (h : l.find? (fun e => decide (e.1 = k)) = none) :
    alistInsert (l ++ [(k, v0)]) k v = l ++ [(k, v)] := by
  have h' : ∀ e ∈ l, e.1 ≠ k := by
    intro e he
    have := List.find?_eq_none.mp h e he
    simpa using this
  have hcond : ((l ++ [(k, v0)]).find? (fun e => decide (e.1 = k))).isSome
      = true := by
    rw [List.find?_append, h, Option.none_or,
      List.find?_cons_of_pos _ (by simp)]
    rfl
  rw [alistInsert, if_pos hcond, List.map_append]
  congr 1
  · have : l.map (fun e => if e.1 = k then (k, v) else e) = l.map id :=
      List.map_congr_left (fun e he => by rw [if_neg (h' e he)]; rfl)
    rw [this, List.map_id]
  · simp

/-- One `processItem` step on a fresh key whose provider round fails
with an empty tried list: with a priority list of length at most 1 and
`maxLoops` at most 1, the key is marked processed at once and its new
retry record carries one used loop. -/
theorem processItem_fresh_exhausted (cfg : Config) (env : Env)
    (st : LoopState) (it : FailedItem)
    (hfind : st.retry.find? (fun e => decide (e.1 = keyOf it)) = none)
    (hstart : start_fallback_download cfg env
        { it with sourceId := it.sourceId } [] (keyOf it) st.active =
      (none, [], st.active))
    (hpr : cfg.priority.length - 1 ≤ 0)
    (hml : cfg.maxLoops ≤ 1) :
    processItem cfg env st it =
      { st with
        retry := st.retry ++ [(keyOf it, ⟨[], it.sourceId, 1⟩)],
        processed := addIfAbsent st.processed (keyOf it) } := by
  have hL : alistLookup st.retry (keyOf it) = none := by
    rw [alistLookup, hfind]; rfl
  have hA : alistLookup
      (st.retry ++ [(keyOf it, (⟨[], it.sourceId, 0⟩ : RetryRec))])
      (keyOf it) = some ⟨[], it.sourceId, 0⟩ :=
    alistLookup_append_self _ _ _ (by rw [hfind]; rfl)
  have hins := alistInsert_append_fresh st.retry (keyOf it)
    (⟨[], it.sourceId, 0⟩ : RetryRec) (⟨[], it.sourceId, 1⟩ : RetryRec) hfind
  simp only [processItem, hL, Option.isSome_none, Bool.false_eq_true,
    if_false, hA, Option.getD_some]
  rw [hstart]
  simp only [List.length_nil, Nat.zero_add]
  rw [if_pos hpr, if_pos (by omega : cfg.maxLoops ≤ 0 + 1)]
  rw [hins]

/-- Folding the flooding batch over the initial state marks every key
processed and stores an exhausted one-loop retry record for each. -/
theorem foldl_c4 : ∀ n : ℕ,
    (items4 n).foldl (processItem cfg4 envC1) initState =
      ⟨[], keys4 n, recs4 n, [], []⟩ := by
  intro n
  induction n with
  | zero => rfl
  | succ m ih =>
    have hsplit : items4 (m + 1) = items4 m ++ [mkItem m] := by
      rw [items4, items4, List.range_succ, List.map_append]
      rfl
    rw [hsplit, List.foldl_append, ih, List.foldl_cons, List.foldl_nil]
    have hfind : (recs4 m).find?
        (fun e => decide (e.1 = keyOf (mkItem m))) = none := by
      apply List.find?_eq_none.mpr
      intro e he
      rw [recs4] at he
      obtain ⟨i, hi, rfl⟩ := List.mem_map.mp he
      rw [List.mem_range] at hi
      simp only [decide_eq_true_eq, keyOf, mkItem, Prod.mk.injEq]
      omega
    have hstep := processItem_fresh_exhausted cfg4 envC1
      ⟨[], keys4 m, recs4 m, [], []⟩ (mkItem m) hfind rfl
      (by decide) (by decide)
    rw [hstep]
    have hnm : ((m, 0) : Key) ∉ keys4 m := by
      rw [keys4]
      intro hc
      obtain ⟨i, hi, hie⟩ := List.mem_map.mp hc
      rw [List.mem_range] at hi
      rw [Prod.mk.injEq] at hie
      omega
    have hproc : addIfAbsent (keys4 m) ((m, 0) : Key) = keys4 (m + 1) := by
      rw [addIfAbsent, if_neg hnm, keys4, keys4, List.range_succ,
        List.map_append]
      rfl
    have hrecs : recs4 m ++ [(((m, 0) : Key), (⟨[], 0, 1⟩ : RetryRec))] =
        recs4 (m + 1) := by
      rw [recs4, recs4, List.range_succ, List.map_append]
      rfl
    show (⟨[], addIfAbsent (keys4 m) ((m, 0) : Key),
      recs4 m ++ [(((m, 0) : Key), (⟨[], 0, 1⟩ : RetryRec))], [], []⟩ :
        LoopState) = ⟨[], keys4 (m + 1), recs4 (m + 1), [], []⟩
    rw [hproc, hrecs]

set_option maxRecDepth 100000 in
/-- The flooding cycle before cleanup: 1001 processed keys. -/
theorem cycleA_c4 :
    cycleA cfg4 envC1 initState = ⟨[], keys4 1001, recs4 1001, [], []⟩ := by
  have h1 : phase1 envC1 initState = initState := rfl
  have h2 : phase2 envC1 initState = initState := rfl
  rw [cycleA, h1, h2, phase3, if_pos (by decide)]
  have hsel : selectToProcess cfg4 envC1 initState = items4 1001 := by
    rw [selectToProcess]
    have hf : envC1.failedItems.filter
        (fun it => decide (keyOf it ∉ initState.processed) &&
          decide (keyOf it ∉ initState.pending)) = envC1.failedItems :=
      List.filter_eq_self.mpr (fun a _ => by simp [initState])
    rw [hf]
    show (items4 1001).take 1001 = items4 1001
    exact List.take_of_length_le
      (le_of_eq (by rw [items4, List.length_map, List.length_range]))
  rw [hsel]
  exact foldl_c4 1001

set_option maxRecDepth 100000 in
/-- The cleanup of the flooding cycle resets the state completely. -/
theorem mainCycle_c4 : mainCycle cfg4 envC1 initState = initState := by
  rw [mainCycle, cycleA_c4, phase4, if_pos]
  · rfl
  · show 1000 < (keys4 1001).length
    rw [keys4, List.length_map, List.length_range]
    omega

/-- `phase2` can only add processed keys. -/
theorem phase2_processed_mono (env : Env) (st : LoopState) :
    st.processed ⊆ (phase2 env st).processed := by
  rw [phase2]
  have aux : ∀ (l : List Key) (s : LoopState),
      s.processed ⊆ ((l.foldl
        (fun s k =>
          if k ∈ env.failedKeysCheck then
            if PENDING_TIMEOUT <
                env.nowPending -
                  ((alistLookup s.pendingTimes k).getD env.nowPending) then
              { s with
                pending := s.pending.filter (fun x => decide (x ≠ k)),
                pendingTimes := alistErase s.pendingTimes k,
                processed := addIfAbsent s.processed k }
            else s
          else
            { s with
              pending := s.pending.filter (fun x => decide (x ≠ k)),
              pendingTimes := alistErase s.pendingTimes k,
              processed := addIfAbsent s.processed k }) s)).processed := by
    intro l
    induction l with
    | nil => exact fun s x hx => hx
    | cons a rest ih =>
      intro s
      rw [List.foldl_cons]
      refine List.Subset.trans ?_ (ih _)
      split
      · split
        · exact subset_addIfAbsent _ _
        · exact fun x hx => hx
      · exact subset_addIfAbsent _ _
  exact aux st.pending st

/-- `processItem` can only add processed keys. -/
theorem processItem_processed_mono (cfg : Config) (env : Env)
    (st : LoopState) (it : FailedItem) :
    st.processed ⊆ (processItem cfg env st it).processed := by
  simp only [processItem]
  repeat' split
  all_goals first
    | exact fun x hx => hx
    | exact subset_addIfAbsent st.processed (keyOf it)

/-- `phase3` can only add processed keys. -/
theorem phase3_processed_mono (cfg : Config) (env : Env) (st : LoopState) :
    st.processed ⊆ (phase3 cfg env st).processed := by
  rw [phase3]
  split
  · have aux : ∀ (l : List FailedItem) (s : LoopState),
        s.processed ⊆ ((l.foldl (processItem cfg env) s)).processed := by
      intro l
      induction l with
      | nil => exact fun s x hx => hx
      | cons a rest ih =>
        intro s
        rw [List.foldl_cons]
        exact List.Subset.trans (processItem_processed_mono cfg env s a)
          (ih _)
    exact aux _ st
  · exact fun x hx => hx

/-- A cycle before cleanup can only add processed keys. -/
theorem cycleA_processed_mono (cfg : Config) (env : Env) (st : LoopState) :
    st.processed ⊆ (cycleA cfg env st).processed := by
  rw [cycleA]
  intro x hx
  apply phase3_processed_mono
  apply phase2_processed_mono
  rw [phase1_processed]
  exact hx

/-- When the cleanup threshold is not hit, a full cycle keeps every
processed key processed. -/
theorem mainCycle_processed_keep (cfg : Config) (env : Env) (st : LoopState)
    (hlen : (cycleA cfg env st).processed.length ≤ 1000) (k : Key)
    (hk : k ∈ st.processed) : k ∈ (mainCycle cfg env st).processed := by
  rw [mainCycle, phase4, if_neg (by omega)]
  exact cycleA_processed_mono cfg env st hk

/-- Keys already processed are excluded from the batch to process. -/
theorem selectToProcess_excludes (cfg : Config) (env : Env) (st : LoopState)
    (k : Key) (hk : k ∈ st.processed) :
    ∀ it ∈ selectToProcess cfg env st, keyOf it ≠ k := by
  intro it hit hkeq
  rw [selectToProcess] at hit
  have hit2 := List.take_subset _ _ hit
  have hp := (List.mem_filter.mp hit2).2
  rw [Bool.and_eq_true] at hp
  exact of_decide_eq_true hp.1 (by rw [hkeq]; exact hk)

/-- C4 (amended).  Being marked processed is terminal only as long as
the periodic cleanup never fires: if the key is processed and every
cycle of the run ends with at most 1000 processed keys, the key stays
processed for the whole run and in every cycle the failed items it owns
are excluded from the batch handed to `start_fallback_download` — so no
provider is ever queried on its behalf again.  (The cleanup clause
`len(processed_failures) > 1000` erases the processed set and every
retry record, after which the key is retried from scratch — see the
counterexample.) -/
theorem c4_processed_terminal_without_cleanup
    (cfg : Config) (envs : List Env) (st : LoopState) (k : Key)
    (hk : k ∈ st.processed)
    (hnc : ∀ pre e post, envs = pre ++ e :: post →
      (cycleA cfg e (runCycles cfg pre st)).processed.length ≤ 1000) :
    k ∈ (runCycles cfg envs st).processed ∧
    ∀ pre e post, envs = pre ++ e :: post →
      ∀ it ∈ selectToProcess cfg e
          (phase2 e (phase1 e (runCycles cfg pre st))), keyOf it ≠ k := by
  induction envs generalizing st with
  | nil =>
    refine ⟨hk, ?_⟩
    intro pre e post hpre
    exact absurd hpre (by simp)
  | cons e0 rest ih =>
    have h0 : (cycleA cfg e0 st).processed.length ≤ 1000 :=
      hnc [] e0 rest rfl
    have hk1 : k ∈ (mainCycle cfg e0 st).processed :=
      mainCycle_processed_keep cfg e0 st h0 k hk
    have hnc1 : ∀ pre e post, rest = pre ++ e :: post →
        (cycleA cfg e
          (runCycles cfg pre (mainCycle cfg e0 st))).processed.length
          ≤ 1000 := by
      intro pre e post hpre
      exact hnc (e0 :: pre) e post (by rw [hpre]; rfl)
    obtain ⟨ha, hb⟩ := ih (mainCycle cfg e0 st) hk1 hnc1
    refine ⟨ha, ?_⟩
    intro pre e post hpre
    cases pre with
    | nil =>
      injection hpre with he hp
      subst he
      intro it hit
      have hkp : k ∈ (phase2 e0 (phase1 e0 st)).processed := by
        apply phase2_processed_mono
        rw [phase1_processed]
        exact hk
      exact selectToProcess_excludes cfg e0 _ k hkp it hit
    | cons x xs =>
      injection hpre with he hp
      subst he
      exact hb xs e post hp

/-- Membership in the key list of the flooding batch. -/
theorem mem_keys4 (i n : ℕ) (h : i < n) : ((i, 0) : Key) ∈ keys4 n := by
  rw [keys4]
  exact List.mem_map.mpr ⟨i, List.mem_range.mpr h, rfl⟩

set_option maxRecDepth 100000 in
/-- Counterexample to C4.  With 1001 failures exhausted in one cycle
(priority `[0]` resolving to the destination itself, `maxLoops = 1`),
every key — including `(0, 0)` — is marked processed, but the cleanup
clause fires at the end of that very cycle and wipes the processed set
and all retry records; the next cycle retries key `(0, 0)` from scratch
and creates a fresh exhausted record for it. -/
theorem c4_counterexample :
    (0, 0) ∈ (cycleA cfg4 envC1 initState).processed ∧
    (runCycles cfg4 [envC1] initState).processed = [] ∧
    alistLookup (runCycles cfg4 [envC1, envC2] initState).retry (0, 0) =
      some ⟨[], 0, 1⟩ := by
  refine ⟨?_, ?_, ?_⟩
  · rw [cycleA_c4]
    exact mem_keys4 0 1001 (by omega)
  · simp only [runCycles]
    rw [mainCycle_c4]
    rfl
  · simp only [runCycles]
    rw [mainCycle_c4]
    decide

/-- Witness for C4 (amended) at a concrete input: one quiet cycle that
sees the already-processed failure again keeps it processed. -/
theorem c4_witness :
    (0, 0) ∈ (runCycles cfg4 [envC2] st4w).processed :=
  (c4_processed_terminal_without_cleanup cfg4 [envC2] st4w (0, 0)
    (by decide)
    (by
      intro pre e post hpre
      cases pre with
      | nil =>
        injection hpre with he hp
        subst he
        decide
      | cons x xs =>
        injection hpre with he hp
        exact absurd hp.symm (by simp))).1


/-- Every cell value of the DP is at least 1. -/
theorem chainD_pos {α : Type} [DecidableEq α] (a : List α)
    (b2 : α → List ℕ) (lo hi i j : ℕ) : 1 ≤ chainD a b2 lo hi i j := by
  cases i with
  | zero => exact le_refl 1
  | succ m =>
    rw [chainD]
    split
    · omega
    · exact le_refl 1

/-- Cell values at row `i` are bounded by the window height `i + 1 - lo`. -/
theorem chainD_le {α : Type} [DecidableEq α] (a : List α)
    (b2 : α → List ℕ) (lo hi : ℕ) :
    ∀ i j, lo ≤ i → chainD a b2 lo hi i j ≤ i + 1 - lo := by
  intro i
  induction i with
  | zero => intro j h; interval_cases lo; exact le_refl 1
  | succ m ih =>
    intro j h
    rw [chainD]
    split
    case isTrue hc => have := ih (j - 1) hc.1; omega
    case isFalse hc => omega

/-- Membership in the inner-loop column list. -/
theorem mem_jsRow {α : Type} [DecidableEq α] (a : List α)
    (b2 : α → List ℕ) (lo hi i j : ℕ) :
    j ∈ jsRow a b2 lo hi i ↔
      ∃ c, a.get? i = some c ∧ j ∈ b2 c ∧ lo ≤ j ∧ j < hi := by
  rw [jsRow]
  cases h : a.get? i with
  | none => simp
  | some c => simp [List.mem_filter, and_assoc]

/-- A visited column is on its own row's column list (the positions in
`b2` are genuine occurrences). -/
theorem vis_diag {α : Type} [DecidableEq α] (a : List α)
    (b2 : α → List ℕ)
    (hP1 : ∀ c j, j ∈ b2 c → a.get? j = some c)
    (lo hi i j : ℕ) (h : j ∈ jsRow a b2 lo hi i) :
    j ∈ jsRow a b2 lo hi j := by
  obtain ⟨c, hc, hb, h1, h2⟩ := (mem_jsRow a b2 lo hi i j).mp h
  exact (mem_jsRow a b2 lo hi j j).mpr ⟨c, hP1 c j hb, hb, h1, h2⟩

/-- When a row visits any column, it also visits its own diagonal
(an element with a nonempty position list was not purged). -/
theorem vis_self {α : Type} [DecidableEq α] (a : List α)
    (b2 : α → List ℕ)
    (hP2 : ∀ c i, a.get? i = some c → b2 c ≠ [] → i ∈ b2 c)
    (lo hi i j : ℕ) (h : j ∈ jsRow a b2 lo hi i)
    (h1 : lo ≤ i) (h2 : i < hi) : i ∈ jsRow a b2 lo hi i := by
  obtain ⟨c, hc, hb, _, _⟩ := (mem_jsRow a b2 lo hi i j).mp h
  exact (mem_jsRow a b2 lo hi i i).mpr
    ⟨c, hc, hP2 c i hc (List.ne_nil_of_mem hb), h1, h2⟩

/-- Above the diagonal, cell values are dominated by the diagonal cell
of the same row. -/
theorem chainD_le_diag_upper {α : Type} [DecidableEq α] (a : List α)
    (b2 : α → List ℕ)
    (hP2 : ∀ c i, a.get? i = some c → b2 c ≠ [] → i ∈ b2 c)
    (lo hi : ℕ) :
    ∀ i j, i < hi → j ∈ jsRow a b2 lo hi i → i < j →
      chainD a b2 lo hi i j ≤ chainD a b2 lo hi i i := by
  intro i
  induction i with
  | zero => intro j _ _ _; exact chainD_pos a b2 lo hi 0 0
  | succ m ih =>
    intro j hhi hvis hij
    rw [chainD]
    split
    case isFalse hc => exact chainD_pos a b2 lo hi (m + 1) (m + 1)
    case isTrue hc =>
      obtain ⟨h1, h2, h3⟩ := hc
      have hlt : m < j - 1 := by omega
      have hmhi : m < hi := by omega
      have hd := ih (j - 1) hmhi h3 hlt
      have hself : m ∈ jsRow a b2 lo hi m :=
        vis_self a b2 hP2 lo hi m (j - 1) h3 h1 hmhi
      have hdm : chainD a b2 lo hi (m + 1) (m + 1) =
          chainD a b2 lo hi m m + 1 := by
        rw [chainD, if_pos]
        · simp
        · exact ⟨h1, Nat.succ_pos m, by simpa using hself⟩
      omega

/-- Below the diagonal, cell values are dominated by the diagonal cell
of the column's own row. -/
theorem chainD_le_diag_lower {α : Type} [DecidableEq α] (a : List α)
    (b2 : α → List ℕ)
    (hP1 : ∀ c j, j ∈ b2 c → a.get? j = some c)
    (lo hi : ℕ) :
    ∀ i j, j ∈ jsRow a b2 lo hi i → j < i →
      chainD a b2 lo hi i j ≤ chainD a b2 lo hi j j := by
  intro i
  induction i with
  | zero => intro j _ h; omega
  | succ m ih =>
    intro j hvis hji
    rw [chainD]
    split
    case isFalse hc => exact chainD_pos a b2 lo hi j j
    case isTrue hc =>
      obtain ⟨h1, h2, h3⟩ := hc
      obtain ⟨n, rfl⟩ : ∃ n, j = n + 1 := ⟨j - 1, by omega⟩
      have hn : n + 1 - 1 = n := by omega
      rw [hn] at h3
      have hd : chainD a b2 lo hi m n ≤ chainD a b2 lo hi n n := by
        by_cases hnm : n < m
        · exact ih n (by simpa [hn] using h3) hnm
        · have : n = m := by omega
          subst this
          exact le_refl _
      have hnlo : lo ≤ n := ((mem_jsRow a b2 lo hi m n).mp h3).choose_spec.2.2.1
      have hself : n ∈ jsRow a b2 lo hi n := vis_diag a b2 hP1 lo hi m n h3
      have hdn : chainD a b2 lo hi (n + 1) (n + 1) =
          chainD a b2 lo hi n n + 1 := by
        rw [chainD, if_pos]
        · simp
        · exact ⟨hnlo, Nat.succ_pos n, by simpa using hself⟩
      simp only [hn]
      omega

/-- Looking a key up in an association list tabulating a function. -/
theorem lookup_map_self (g : ℕ → ℕ) :
    ∀ (l : List ℕ) (x : ℕ),
      List.lookup x (l.map (fun j => (j, g j))) =
        if x ∈ l then some (g x) else none := by
  intro l
  induction l with
  | nil => intro x; rfl
  | cons y rest ih =>
    intro x
    by_cases hxy : x = y
    · subst hxy
      simp [List.lookup]
    · have hbeq : (x == y) = false := by simpa using hxy
      simp only [List.map_cons, List.lookup_cons, hbeq, ih x]
      by_cases hx : x ∈ rest
      · rw [if_pos hx, if_pos (List.mem_cons_of_mem y hx)]
      · rw [if_neg hx, if_neg (by simp [hxy, hx])]

/-- Self-comparison of an in-range element is true. -/
theorem eltEq_self {α : Type} [DecidableEq α] (a : List α) (i : ℕ)
    (h : i < a.length) : eltEq a a i i = true := by
  rw [eltEq]
  rcases hg : a.get? i with _ | x
  · exact absurd (List.get?_eq_none.mp hg) (by omega)
  · simp

/-- The backward extension loop on a diagonal block runs to the left
edge of the window. -/
theorem extendBack_diag {α : Type} [DecidableEq α] (a : List α)
    (lo : ℕ) :
    ∀ (f bi bs : ℕ), lo ≤ bi → bi ≤ a.length → bi - lo ≤ f →
      extendBack a a lo lo f bi bi bs = (lo, lo, bs + (bi - lo)) := by
  intro f
  induction f with
  | zero =>
    intro bi bs h1 h2 h3
    have : bi = lo := by omega
    subst this
    rw [extendBack]
    simp
  | succ g ih =>
    intro bi bs h1 h2 h3
    rw [extendBack]
    by_cases hlt : lo < bi
    · rw [if_pos ⟨hlt, hlt, eltEq_self a (bi - 1) (by omega)⟩]
      rw [ih (bi - 1) (bs + 1) (by omega) (by omega) (by omega)]
      have : bs + 1 + (bi - 1 - lo) = bs + (bi - lo) := by omega
      rw [this]
    · have : bi = lo := by omega
      subst this
      rw [if_neg (by simp [hlt])]
      simp

/-- The forward extension loop on a diagonal block runs to the right
edge of the window. -/
theorem extendFwd_diag {α : Type} [DecidableEq α] (a : List α)
    (lo hi : ℕ) (hlen : hi ≤ a.length) :
    ∀ (f bs : ℕ), lo + bs ≤ hi → hi - (lo + bs) ≤ f →
      extendFwd a a hi hi f lo lo bs = hi - lo := by
  intro f
  induction f with
  | zero =>
    intro bs h1 h2
    rw [extendFwd]
    omega
  | succ g ih =>
    intro bs h1 h2
    rw [extendFwd]
    by_cases hlt : lo + bs < hi
    · rw [if_pos ⟨hlt, hlt, eltEq_self a (lo + bs) (by omega)⟩]
      exact ih (bs + 1) (by omega) (by omega)
    · rw [if_neg (by simp [hlt])]
      omega


/-- Invariant of the inner loop of `find_longest_match` on `a = b`:
starting from a diagonal best block inside the window that dominates
every earlier diagonal cell, the fold over a row's columns keeps the
best block diagonal and inside the window, records the row's cell
values, and ends dominating the whole row as well. -/
theorem flm_row_fold {α : Type} [DecidableEq α] (a : List α)
    (b2 : α → List ℕ)
    (hP1 : ∀ c j, j ∈ b2 c → a.get? j = some c)
    (hP2 : ∀ c i, a.get? i = some c → b2 c ≠ [] → i ∈ b2 c)
    (lo hi i : ℕ) (hio : lo ≤ i) (hihi : i < hi)
    (pj : List (ℕ × ℕ))
    (hk : ∀ j : ℕ, (if j = 0 then 0 else (List.lookup (j - 1) pj).getD 0) + 1
      = chainD a b2 lo hi i j)
    (hpw : (jsRow a b2 lo hi i).Pairwise (fun x y => x < y)) :
    ∀ (rest done : List ℕ) (st : FlmState),
      done ++ rest = jsRow a b2 lo hi i →
      st.j2len = done.map (fun j => (j, chainD a b2 lo hi i j)) →
      st.besti = st.bestj →
      lo ≤ st.besti →
      st.besti + st.bestsize ≤ hi →
      (∀ j, lo ≤ j → j < i → j ∈ jsRow a b2 lo hi j →
        chainD a b2 lo hi j j ≤ st.bestsize) →
      (∀ j ∈ done, chainD a b2 lo hi i j ≤ st.bestsize) →
      ((rest.foldl (flmStep pj i) st).besti
          = (rest.foldl (flmStep pj i) st).bestj) ∧
      lo ≤ (rest.foldl (flmStep pj i) st).besti ∧
      (rest.foldl (flmStep pj i) st).besti
          + (rest.foldl (flmStep pj i) st).bestsize ≤ hi ∧
      (∀ j, lo ≤ j → j < i → j ∈ jsRow a b2 lo hi j →
        chainD a b2 lo hi j j ≤ (rest.foldl (flmStep pj i) st).bestsize) ∧
      (∀ j ∈ jsRow a b2 lo hi i,
        chainD a b2 lo hi i j ≤ (rest.foldl (flmStep pj i) st).bestsize) ∧
      (rest.foldl (flmStep pj i) st).j2len
          = (jsRow a b2 lo hi i).map (fun j => (j, chainD a b2 lo hi i j)) := by
  intro rest
  induction rest with
  | nil =>
    intro done st hdec hj2 hbb hlo hle hbigD hrow
    rw [List.append_nil] at hdec
    subst hdec
    rw [List.foldl_nil]
    exact ⟨hbb, hlo, hle, hbigD, hrow, hj2⟩
  | cons j rest ih =>
    intro done st hdec hj2 hbb hlo hle hbigD hrow
    have hjmem : j ∈ jsRow a b2 lo hi i := by
      rw [← hdec]
      exact List.mem_append.mpr (Or.inr (List.mem_cons_self _ _))
    have hjwin : lo ≤ j ∧ j < hi := by
      obtain ⟨c, _, _, h1, h2⟩ := (mem_jsRow a b2 lo hi i j).mp hjmem
      exact ⟨h1, h2⟩
    have hdec2 : (done ++ [j]) ++ rest = jsRow a b2 lo hi i := by
      rw [← hdec, List.append_assoc]
      rfl
    by_cases hupd : st.bestsize < chainD a b2 lo hi i j
    · have hji : j = i := by
        rcases Nat.lt_trichotomy j i with hlt | heq | hgt
        · have h5 := chainD_le_diag_lower a b2 hP1 lo hi i j hjmem hlt
          have h6 : j ∈ jsRow a b2 lo hi j := vis_diag a b2 hP1 lo hi i j hjmem
          have h7 := hbigD j hjwin.1 hlt h6
          omega
        · exact heq
        · exfalso
          have h5 := chainD_le_diag_upper a b2 hP2 lo hi i j hihi hjmem hgt
          have hiself : i ∈ jsRow a b2 lo hi i :=
            vis_self a b2 hP2 lo hi i j hjmem hio hihi
          have hin : i ∈ done ++ j :: rest := by
            rw [hdec]
            exact hiself
          have hidone : i ∈ done := by
            rcases List.mem_append.mp hin with h | h
            · exact h
            · rcases List.mem_cons.mp h with h | h
              · omega
              · have hpw2 : (done ++ j :: rest).Pairwise
                    (fun x y => x < y) := by
                  rw [hdec]
                  exact hpw
                have h9 := (List.pairwise_cons.mp
                  (List.pairwise_append.mp hpw2).2.1).1 i h
                omega
          have h8 := hrow i hidone
          omega
      subst hji
      have hstep : flmStep pj j st j =
          ⟨st.j2len ++ [(j, chainD a b2 lo hi j j)],
            j + 1 - chainD a b2 lo hi j j,
            j + 1 - chainD a b2 lo hi j j,
            chainD a b2 lo hi j j⟩ := by
        simp only [flmStep]
        rw [hk j, if_pos hupd]
      rw [List.foldl_cons, hstep]
      have hc1 := chainD_pos a b2 lo hi j j
      have hc2 := chainD_le a b2 lo hi j j hio
      refine ih (done ++ [j]) _ hdec2 ?_ rfl ?_ ?_ ?_ ?_
      · rw [List.map_append, ← hj2]
        rfl
      · show lo ≤ j + 1 - chainD a b2 lo hi j j
        omega
      · show j + 1 - chainD a b2 lo hi j j + chainD a b2 lo hi j j ≤ hi
        omega
      · intro x hx1 hx2 hx3
        have := hbigD x hx1 hx2 hx3
        show chainD a b2 lo hi x x ≤ chainD a b2 lo hi j j
        omega
      · intro x hx
        rcases List.mem_append.mp hx with h | h
        · have := hrow x h
          show chainD a b2 lo hi j x ≤ chainD a b2 lo hi j j
          omega
        · rcases List.mem_cons.mp h with rfl | h
          · exact le_refl _
          · exact absurd h (List.not_mem_nil x)
    · have hstep : flmStep pj i st j =
          ⟨st.j2len ++ [(j, chainD a b2 lo hi i j)],
            st.besti, st.bestj, st.bestsize⟩ := by
        simp only [flmStep]
        rw [hk j, if_neg hupd]
      rw [List.foldl_cons, hstep]
      refine ih (done ++ [j]) _ hdec2 ?_ hbb hlo hle hbigD ?_
      · rw [List.map_append, ← hj2]
        rfl
      · intro x hx
        rcases List.mem_append.mp hx with h | h
        · exact hrow x h
        · rcases List.mem_cons.mp h with rfl | h
          · exact Nat.le_of_not_lt hupd
          · exact absurd h (List.not_mem_nil x)


/-- The first processed row always stores the value 1. -/
theorem chainD_first {α : Type} [DecidableEq α] (a : List α)
    (b2 : α → List ℕ) (lo hi j : ℕ) : chainD a b2 lo hi lo j = 1 := by
  cases lo with
  | zero => rfl
  | succ m =>
    rw [chainD, if_neg]
    intro h
    omega

/-- Column lists are strictly ascending (`b2` holds ascending position
lists and the window restriction keeps the order). -/
theorem jsRow_pairwise {α : Type} [DecidableEq α] (a : List α)
    (b2 : α → List ℕ)
    (hP3 : ∀ c, (b2 c).Pairwise (fun x y => x < y))
    (lo hi i : ℕ) :
    (jsRow a b2 lo hi i).Pairwise (fun x y => x < y) := by
  rw [jsRow]
  cases a.get? i with
  | none => exact List.Pairwise.nil
  | some c => exact (hP3 c).filter _

/-- Invariant of the outer loop of `find_longest_match` on `a = b`:
after any number of rows the best block is diagonal, inside the window,
dominates every processed diagonal cell, and `j2len` tabulates the last
processed row. -/
theorem flm_outer {α : Type} [DecidableEq α] (a : List α)
    (b2 : α → List ℕ)
    (hP1 : ∀ c j, j ∈ b2 c → a.get? j = some c)
    (hP2 : ∀ c i, a.get? i = some c → b2 c ≠ [] → i ∈ b2 c)
    (hP3 : ∀ c, (b2 c).Pairwise (fun x y => x < y))
    (lo hi : ℕ) :
    ∀ (n : ℕ), lo + n ≤ hi →
      (((List.range' lo n).foldl (flmRow a b2 lo hi)
          ⟨[], lo, lo, 0⟩).besti
        = ((List.range' lo n).foldl (flmRow a b2 lo hi)
          ⟨[], lo, lo, 0⟩).bestj) ∧
      lo ≤ ((List.range' lo n).foldl (flmRow a b2 lo hi)
          ⟨[], lo, lo, 0⟩).besti ∧
      ((List.range' lo n).foldl (flmRow a b2 lo hi)
          ⟨[], lo, lo, 0⟩).besti
        + ((List.range' lo n).foldl (flmRow a b2 lo hi)
          ⟨[], lo, lo, 0⟩).bestsize ≤ hi ∧
      (∀ j, lo ≤ j → j < lo + n → j ∈ jsRow a b2 lo hi j →
        chainD a b2 lo hi j j
          ≤ ((List.range' lo n).foldl (flmRow a b2 lo hi)
            ⟨[], lo, lo, 0⟩).bestsize) ∧
      (((List.range' lo n).foldl (flmRow a b2 lo hi)
          ⟨[], lo, lo, 0⟩).j2len = [] ∧ n = 0 ∨
        1 ≤ n ∧
        ((List.range' lo n).foldl (flmRow a b2 lo hi)
            ⟨[], lo, lo, 0⟩).j2len
          = (jsRow a b2 lo hi (lo + n - 1)).map
            (fun j => (j, chainD a b2 lo hi (lo + n - 1) j))) := by
  intro n
  induction n with
  | zero =>
    intro h
    refine ⟨rfl, le_refl lo, ?_, ?_, Or.inl ⟨rfl, rfl⟩⟩
    · show lo + 0 ≤ hi
      omega
    · intro j h1 h2 _
      omega
  | succ n ih =>
    intro h
    obtain ⟨hA, hB, hC, hD, hE⟩ := ih (by omega)
    rw [List.range'_1_concat, List.foldl_append, List.foldl_cons,
      List.foldl_nil]
    have hk : ∀ j : ℕ,
        (if j = 0 then 0 else
          (List.lookup (j - 1)
            ((List.range' lo n).foldl (flmRow a b2 lo hi)
              ⟨[], lo, lo, 0⟩).j2len).getD 0) + 1
        = chainD a b2 lo hi (lo + n) j := by
      rcases hE with ⟨hj2, hn0⟩ | ⟨hn1, hj2⟩
      · subst hn0
        intro j
        rw [hj2,
          show chainD a b2 lo hi (lo + 0) j = 1 from chainD_first a b2 lo hi j]
        split
        · rfl
        · rfl
      · intro j
        obtain ⟨m, rfl⟩ : ∃ m, n = m + 1 := ⟨n - 1, by omega⟩
        have hidx : lo + (m + 1) - 1 = lo + m := by omega
        rw [hj2, hidx, lookup_map_self]
        have hstep : lo + (m + 1) = (lo + m) + 1 := by omega
        rw [hstep, chainD]
        by_cases hj0 : j = 0
        · subst hj0
          rw [if_pos rfl, if_neg]
          intro hcond
          exact absurd hcond.2.1 (by omega)
        · rw [if_neg hj0]
          by_cases hmem : (j - 1) ∈ jsRow a b2 lo hi (lo + m)
          · rw [if_pos hmem, if_pos ⟨by omega, by omega, hmem⟩]
            rfl
          · rw [if_neg hmem, if_neg]
            · rfl
            · intro hcond
              exact hmem hcond.2.2
    have hinner := flm_row_fold a b2 hP1 hP2 lo hi (lo + n)
      (by omega) (by omega)
      ((List.range' lo n).foldl (flmRow a b2 lo hi) ⟨[], lo, lo, 0⟩).j2len
      hk (jsRow_pairwise a b2 hP3 lo hi (lo + n))
      (jsRow a b2 lo hi (lo + n)) []
      ⟨[], ((List.range' lo n).foldl (flmRow a b2 lo hi)
          ⟨[], lo, lo, 0⟩).besti,
        ((List.range' lo n).foldl (flmRow a b2 lo hi)
          ⟨[], lo, lo, 0⟩).bestj,
        ((List.range' lo n).foldl (flmRow a b2 lo hi)
          ⟨[], lo, lo, 0⟩).bestsize⟩
      rfl rfl hA hB hC hD (by intro x hx; exact absurd hx (List.not_mem_nil x))
    rw [flmRow]
    obtain ⟨iA, iB, iC, iD, iRow, iJ2⟩ := hinner
    refine ⟨iA, iB, iC, ?_, Or.inr ⟨by omega, ?_⟩⟩
    · intro j h1 h2 h3
      by_cases hj : j < lo + n
      · exact iD j h1 hj h3
      · have : j = lo + n := by omega
        subst this
        exact iRow _ h3
    · have hidx : lo + (n + 1) - 1 = lo + n := by omega
      rw [hidx]
      exact iJ2


/-- Assembling the extension loops: any diagonal best block inside the
window extends to the whole window. -/
theorem flm_assemble {α : Type} [DecidableEq α] (a : List α) (lo hi : ℕ)
    (hhi : hi ≤ a.length) (s : FlmState) (hbb : s.besti = s.bestj)
    (hlo : lo ≤ s.besti) (hle : s.besti + s.bestsize ≤ hi) :
    ((extendBack a a lo lo s.besti s.besti s.bestj s.bestsize).1,
      (extendBack a a lo lo s.besti s.besti s.bestj s.bestsize).2.1,
      extendFwd a a hi hi hi
        (extendBack a a lo lo s.besti s.besti s.bestj s.bestsize).1
        (extendBack a a lo lo s.besti s.besti s.bestj s.bestsize).2.1
        (extendBack a a lo lo s.besti s.besti s.bestj s.bestsize).2.2)
      = (lo, lo, hi - lo) := by
  rw [← hbb]
  rw [extendBack_diag a lo s.besti s.besti s.bestsize hlo (by omega) (by omega)]
  show (lo, lo, extendFwd a a hi hi hi lo lo (s.bestsize + (s.besti - lo)))
    = (lo, lo, hi - lo)
  rw [extendFwd_diag a lo hi hhi hi (s.bestsize + (s.besti - lo)) (by omega)
    (by omega)]

/-- `find_longest_match` of a sequence against itself on a common
window is the whole window. -/
theorem flm_self {α : Type} [DecidableEq α] (a : List α)
    (b2 : α → List ℕ)
    (hP1 : ∀ c j, j ∈ b2 c → a.get? j = some c)
    (hP2 : ∀ c i, a.get? i = some c → b2 c ≠ [] → i ∈ b2 c)
    (hP3 : ∀ c, (b2 c).Pairwise (fun x y => x < y))
    (lo hi : ℕ) (hlohi : lo ≤ hi) (hhi : hi ≤ a.length) :
    find_longest_match a a b2 lo hi lo hi = (lo, lo, hi - lo) := by
  obtain ⟨hA, hB, hC, _, _⟩ := flm_outer a b2 hP1 hP2 hP3 lo hi (hi - lo)
    (by omega)
  exact flm_assemble a lo hi hhi
    ((List.range' lo (hi - lo)).foldl (flmRow a b2 lo hi) ⟨[], lo, lo, 0⟩)
    hA hB hC

/-- The block decomposition of an empty self-window matches nothing. -/
theorem matchTotal_self_empty {α : Type} [DecidableEq α] (a : List α)
    (b2 : α → List ℕ)
    (hP1 : ∀ c j, j ∈ b2 c → a.get? j = some c)
    (hP2 : ∀ c i, a.get? i = some c → b2 c ≠ [] → i ∈ b2 c)
    (hP3 : ∀ c, (b2 c).Pairwise (fun x y => x < y))
    (l : ℕ) (hl : l ≤ a.length) :
    ∀ f, matchTotal a a b2 f l l l l = 0 := by
  intro f
  cases f with
  | zero => rfl
  | succ g =>
    have hms := flm_self a b2 hP1 hP2 hP3 l l (le_refl l) hl
    simp only [matchTotal, hms, Nat.sub_self]
    rfl

/-- The block decomposition of a sequence against itself matches the
whole window. -/
theorem matchTotal_self {α : Type} [DecidableEq α] (a : List α)
    (b2 : α → List ℕ)
    (hP1 : ∀ c j, j ∈ b2 c → a.get? j = some c)
    (hP2 : ∀ c i, a.get? i = some c → b2 c ≠ [] → i ∈ b2 c)
    (hP3 : ∀ c, (b2 c).Pairwise (fun x y => x < y))
    (lo hi : ℕ) (hlohi : lo ≤ hi) (hhi : hi ≤ a.length) :
    ∀ f, 1 ≤ f → matchTotal a a b2 f lo hi lo hi = hi - lo := by
  intro f hf
  obtain ⟨g, rfl⟩ : ∃ g, f = g + 1 := ⟨f - 1, by omega⟩
  have hms := flm_self a b2 hP1 hP2 hP3 lo hi hlohi hhi
  simp only [matchTotal, hms]
  by_cases h0 : hi - lo = 0
  · rw [if_pos h0, h0]
  · have hsum : lo + (hi - lo) = hi := by omega
    rw [if_neg h0, hsum,
      matchTotal_self_empty a b2 hP1 hP2 hP3 lo (by omega) g,
      matchTotal_self_empty a b2 hP1 hP2 hP3 hi hhi g]
    omega

/-- Positions listed by `b2j.get` are genuine occurrences. -/
theorem b2jGet_P1 {α : Type} [DecidableEq α] (a : List α) :
    ∀ c j, j ∈ b2jGet a c → a.get? j = some c := by
  intro c j h
  simp only [b2jGet] at h
  split at h
  · exact absurd h (List.not_mem_nil j)
  · exact of_decide_eq_true (List.mem_filter.mp h).2

/-- Autojunk purges whole elements: a surviving element lists all its
positions. -/
theorem b2jGet_P2 {α : Type} [DecidableEq α] (a : List α) :
    ∀ c i, a.get? i = some c → b2jGet a c ≠ [] → i ∈ b2jGet a c := by
  intro c i hget hne
  simp only [b2jGet] at hne ⊢
  by_cases hc : 200 ≤ a.length ∧ a.length / 100 + 1 <
      ((List.range a.length).filter (fun j => decide (a.get? j = some c))).length
  · rw [if_pos hc] at hne
    exact absurd rfl hne
  · rw [if_neg hc]
    obtain ⟨hlt, _⟩ := List.get?_eq_some.mp hget
    exact List.mem_filter.mpr ⟨List.mem_range.mpr hlt, by simpa using hget⟩

/-- Position lists are strictly ascending. -/
theorem b2jGet_P3 {α : Type} [DecidableEq α] (a : List α) :
    ∀ c, (b2jGet a c).Pairwise (fun x y => x < y) := by
  intro c
  simp only [b2jGet]
  split
  · exact List.Pairwise.nil
  · exact (List.pairwise_lt_range _).filter _

/-- `mkRat n n = 1` for nonzero `n`. -/
theorem mkRat_self_ne_zero (n : ℕ) (h : n ≠ 0) : mkRat (n : ℤ) n = 1 := by
  rw [Rat.mkRat_eq_div]
  have hc : (((n : ℤ)) : ℚ) = (n : ℚ) := by push_cast; rfl
  rw [hc]
  exact div_self (Nat.cast_ne_zero.mpr h)

/-- `SequenceMatcher.ratio()` of any sequence against itself is 1. -/
theorem seqRatio_self {α : Type} [DecidableEq α] (l : List α) :
    seqRatio l l = 1 := by
  rw [seqRatio]
  by_cases h0 : l.length + l.length = 0
  · rw [if_pos h0]
  · rw [if_neg h0]
    rw [matchTotal_self l (b2jGet l) (b2jGet_P1 l) (b2jGet_P2 l)
      (b2jGet_P3 l) 0 l.length (by omega) (le_refl _) l.length (by omega)]
    rw [Nat.sub_zero]
    have h2 : l.length + l.length = 2 * l.length := by omega
    rw [h2]
    have hm := mkRat_self_ne_zero (2 * l.length) (by omega)
    have hcast : ((2 * l.length : ℕ) : ℤ) = 2 * (l.length : ℤ) := by
      push_cast
      ring
    rw [hcast] at hm
    exact hm


/-- C7 (amended).  `title_similarity` of any title against itself is
exactly 1.0 — even without the claim's proviso that the normalized form
be non-empty (two empty normalized strings also score 1.0).  The
symmetry half of the original claim is false: `SequenceMatcher.ratio`
treats its arguments asymmetrically (`b2j` is built from the second
argument and the recursive block decomposition is not symmetric) — see
the counterexample. -/
theorem c7_self_similarity_one : ∀ s : String, title_similarity s s = 1 :=
  fun s => seqRatio_self (normalize s)

/-- Counterexample to C7's symmetry half: swapping the arguments of
`title_similarity` changes the score (2/3 against 1/3 on the pair
"ab" / "bacb", whose normalized forms are both non-empty). -/
theorem c7_counterexample :
    title_similarity ("ab") ("bacb") = mkRat 2 3 ∧
    title_similarity ("bacb") ("ab") = mkRat 1 3 ∧
    title_similarity ("ab") ("bacb") ≠ title_similarity ("bacb") ("ab") := by
  refine ⟨?_, ?_, ?_⟩
  · decide
  · decide
  · decide

end SFD
